import Mathlib

/-!
Verification of the kilo text editor (src/kilo.c) against its
natural-language specification.  The C program is shallowly embedded:
rows are lists of characters, the global editor state is an explicit
structure, and every editor operation is a pure Lean function mirroring
the corresponding C function branch by branch.  All recursion is
structural (loops that are not structurally recursive carry an explicit
fuel argument whose initial value is an exact bound on the number of
loop iterations), so every definition is executable and concrete states
can be evaluated by `decide` / `rfl`.
-/

set_option maxHeartbeats 1000000

namespace Kilo

/-- Highlight tags, mirroring `enum editorHighlight` in kilo.c
(HL_NORMAL, HL_COMMENT, HL_MLCOMMENT, HL_KEYWORD1, HL_KEYWORD2,
HL_STRING, HL_NUMBER, HL_MATCH). -/
inductive Hl where
  | normal
  | comment
  | mlcomment
  | keyword1
  | keyword2
  | str
  | number
  | matched
deriving DecidableEq, Repr

/-- One text row, mirroring `typedef struct erow`.  The C fields `size`
and `rsize` are the lengths of `chars` and `render`; the field `idx` is
the row's position in the row list and is kept implicit (a row is always
addressed through its index in the list). -/
structure Row where
  chars : List Char
  render : List Char
  hl : List Hl
  hl_open_comment : Bool
deriving DecidableEq, Repr

instance : Inhabited Row := ⟨⟨[], [], [], false⟩⟩

/-- Reading byte `i` of a C string: in-bounds characters, and the NUL
terminator (modelled as `'\x00'`) at or past the end. -/
def charAt (s : List Char) (i : Nat) : Char := s.getD i '\x00'

/-- Matching `!strncmp(&s[i], pat, pat.length)` for a NUL-free pattern
against the NUL-terminated buffer holding `s`. -/
def matchAt (s : List Char) (i : Nat) (pat : List Char) : Bool :=
  decide (i + pat.length ≤ s.length) && ((s.drop i).take pat.length == pat)

/-- Modelling `memset(&hl[i], v, len)` on a highlight array. -/
def setRange (hl : List Hl) (i len : Nat) (v : Hl) : List Hl :=
  hl.mapIdx (fun j h => if i ≤ j ∧ j < i + len then v else h)

/-- Mirror of `is_separator`: C `isspace`, NUL, or one of the sixteen
punctuation bytes listed in the C source (comma, dot, parentheses,
arithmetic operators, tilde, percent, angle and square brackets,
semicolon). -/
def isSeparator (c : Char) : Bool :=
  c = ' ' || c = '\t' || c = '\n' || c = '\x0b' || c = '\x0c' || c = '\r' ||
  c = '\x00' || (",.()+-/*=~%<>[];".toList.contains c)

/-- Mirror of C `isdigit`. -/
def isDigitB (c : Char) : Bool := '0' ≤ c && c ≤ '9'

/-- Keyword table `C_HL_keywords`, raw strings: a trailing `|` marks a
secondary keyword, exactly as stored in the C array. -/
def cKeywords : List (List Char) :=
  ["switch", "if", "while", "for", "break", "continue", "return", "else",
   "struct", "union", "typedef", "static", "enum", "class", "case",
   "int|", "long|", "double|", "float|", "char|", "unsigned|", "signed|",
   "void|"].map String.toList

/-- Single-line comment start of the built-in C filetype. -/
def scs : List Char := ['/', '/']

/-- Multi-line comment start of the built-in C filetype. -/
def mcs : List Char := ['/', '*']

/-- Multi-line comment end of the built-in C filetype. -/
def mce : List Char := ['*', '/']

/-- Scanning the keyword table in order, mirroring the inner `for` loop
of `editorUpdateSyntax`: the first keyword that matches at `i` and is
followed by a separator wins; the result is its highlight length and
whether it is secondary (`kw2`). -/
def findKeyword (render : List Char) (i : Nat) : List (List Char) → Option (Nat × Bool)
  | [] => none
  | kw :: rest =>
    let kw2 := charAt kw (kw.length - 1) = '|'
    let klen := if kw2 then kw.length - 1 else kw.length
    if matchAt render i (kw.take klen) && isSeparator (charAt render (i + klen)) then
      some (klen, kw2)
    else
      findKeyword render i rest

/-- State of the `editorUpdateSyntax` scanning loop: position `i`, the
highlight array built so far, `prev_sep`, `in_string` (the opening quote
character, `'\x00'` meaning the C value `0`), and `in_comment`. -/
structure ScanSt where
  i : Nat
  hl : List Hl
  prevSep : Bool
  inString : Char
  inComment : Bool
deriving Repr

/-- One execution of the `while (i < row->rsize)` loop body of
`editorUpdateSyntax` (C filetype: numbers and strings highlighted,
comment markers `//`, `/*`, `*/`), mirrored branch by branch.  `fuel`
only bounds the iteration count; `scanRow` supplies a fuel value that is
an exact bound, so the fuel never runs out before `i` reaches the end.
Returns the final highlight array and the final `in_comment` flag. -/
def scanGo (render : List Char) : Nat → ScanSt → List Hl × Bool
  | 0, st => (st.hl, st.inComment)
  | fuel + 1, st =>
    if st.i < render.length then
      let c := charAt render st.i
      let prev_hl := if st.i > 0 then st.hl.getD (st.i - 1) Hl.normal else Hl.normal
      if st.inString = '\x00' && !st.inComment && matchAt render st.i scs then
        (setRange st.hl st.i (render.length - st.i) Hl.comment, st.inComment)
      else if st.inString = '\x00' && st.inComment then
        let hl1 := st.hl.set st.i Hl.mlcomment
        if matchAt render st.i mce then
          scanGo render fuel ⟨st.i + 2, setRange hl1 st.i 2 Hl.mlcomment, true, st.inString, false⟩
        else
          scanGo render fuel ⟨st.i + 1, hl1, st.prevSep, st.inString, true⟩
      else if st.inString = '\x00' && !st.inComment && matchAt render st.i mcs then
        scanGo render fuel ⟨st.i + 2, setRange st.hl st.i 2 Hl.mlcomment, st.prevSep, st.inString, true⟩
      else if st.inString ≠ '\x00' then
        let hl1 := st.hl.set st.i Hl.str
        if c = '\\' && decide (st.i + 1 < render.length) then
          scanGo render fuel ⟨st.i + 2, hl1.set (st.i + 1) Hl.str, st.prevSep, st.inString, st.inComment⟩
        else
          let ns := if c = st.inString then '\x00' else st.inString
          scanGo render fuel ⟨st.i + 1, hl1, true, ns, st.inComment⟩
      else if st.inString = '\x00' && (c = '"' || c = '\'') then
        scanGo render fuel ⟨st.i + 1, st.hl.set st.i Hl.str, st.prevSep, c, st.inComment⟩
      else if (isDigitB c && (st.prevSep || prev_hl = Hl.number)) ||
              (c = '.' && prev_hl = Hl.number) then
        scanGo render fuel ⟨st.i + 1, st.hl.set st.i Hl.number, false, st.inString, st.inComment⟩
      else if st.prevSep then
        match findKeyword render st.i cKeywords with
        | some (klen, kw2) =>
          scanGo render fuel
            ⟨st.i + klen + 1, setRange st.hl st.i klen (if kw2 then Hl.keyword2 else Hl.keyword1),
             isSeparator c, st.inString, st.inComment⟩
        | none =>
          scanGo render fuel ⟨st.i, st.hl, false, st.inString, st.inComment⟩
      else
        scanGo render fuel ⟨st.i + 1, st.hl, isSeparator c, st.inString, st.inComment⟩
    else
      (st.hl, st.inComment)

/-- Highlighting one row given the incoming `in_comment` state inherited
from the previous row.  Mirrors the body of `editorUpdateSyntax` after
the `realloc`/`memset` (the highlight array starts all `HL_NORMAL`) for
a state whose syntax is the built-in C filetype; `2 * rsize + 1` is the
exact value of the loop termination measure
`2 * (rsize - i) + (prev_sep ? 1 : 0)` at entry. -/
def scanRow (render : List Char) (inComment : Bool) : List Hl × Bool :=
  scanGo render (2 * render.length + 1)
    ⟨0, List.replicate render.length Hl.normal, true, '\x00', inComment⟩

/-- Mirror of the inner `while (idx % KILO_TAB_STOP != 0)` padding loop
of `editorUpdateRow`; at most 7 spaces are ever emitted, so fuel 7 is
exact. -/
def padGo : Nat → Nat → List Char
  | 0, _ => []
  | f + 1, idx => if idx % 8 ≠ 0 then ' ' :: padGo f (idx + 1) else []

/-- Spaces emitted for one tab found at render column `idx`: one space,
then padding to the next multiple of `KILO_TAB_STOP = 8`. -/
def tabRun (idx : Nat) : List Char := ' ' :: padGo 7 (idx + 1)

/-- Mirror of the render-building loop of `editorUpdateRow`: tabs expand
into `tabRun`, any other byte is copied. -/
def renderGo (idx : Nat) : List Char → List Char
  | [] => []
  | c :: cs =>
    if c = '\t' then tabRun idx ++ renderGo (idx + (tabRun idx).length) cs
    else c :: renderGo (idx + 1) cs

/-- Building `row->render` from `row->chars` (editorUpdateRow). -/
def renderChars (chars : List Char) : List Char := renderGo 0 chars

/-- Mirror of `editorRowCxToRx`: accumulated render width of the first
`cx` characters of the row. -/
def cxToRxGo : List Char → Nat → Nat
  | [], rx => rx
  | c :: cs, rx => cxToRxGo cs (rx + (if c = '\t' then (8 - 1) - rx % 8 + 1 else 1))

/-- Mirror of `editorRowCxToRx` (the C loop runs `j` over `[0, cx)`). -/
def cxToRx (chars : List Char) (cx : Nat) : Nat := cxToRxGo (chars.take cx) 0

/-- Mirror of the loop of `editorRowRxToCx`: `cnt` is the loop
variable `cx`, `cur` is `cur_rx`; the first `cx` whose accumulated
width exceeds `rx` is returned, and `row->size` if none does. -/
def rxToCxGo : List Char → Nat → Nat → Nat → Nat
  | [], _, _, cnt => cnt
  | c :: cs, rx, cur, cnt =>
    let cur' := cur + (if c = '\t' then (8 - 1) - cur % 8 + 1 else 1)
    if cur' > rx then cnt else rxToCxGo cs rx cur' (cnt + 1)

/-- Mirror of `editorRowRxToCx`. -/
def rxToCx (chars : List Char) (rx : Nat) : Nat := rxToCxGo chars rx 0 0

/-- Mirror of C `strstr(hay, needle)` on the NUL-terminated render
buffer: index of the first occurrence of `needle` in `hay` (an empty
needle matches at offset 0, as in C). -/
def strstrIdx (hay needle : List Char) : Option Nat :=
  (List.range (hay.length + 1)).find? (fun i => matchAt hay i needle)

/-- Global editor state, mirroring `struct editorConfig E` together with
the function-local `static` variables of `editorProcessKeypress`
(`quit_times`) and `editorFindCallback` (`last_match`, `direction`,
`saved_hl_line`/`saved_hl`).  `syntaxOn` records whether `E.syntax`
points at the single built-in C filetype entry (`true`) or is `NULL`
(`false`); `persisted` is a ghost field recording the serialized buffer
contents at the last `editorOpen` or successful `editorSave`, used to
state the dirty-counter claims.  Terminal fields that no claim touches
(`filename`, `statusmsg_time`, `og_termios`) are omitted. -/
structure EState where
  cx : Nat
  cy : Nat
  rx : Nat
  rowoff : Nat
  coloff : Nat
  screenrows : Nat
  screencols : Nat
  rows : List Row
  dirty : Nat
  syntaxOn : Bool
  statusmsg : String
  quitTimes : Nat
  lastMatch : Int
  direction : Int
  savedHl : Option (Nat × List Hl)
  persisted : List Char
deriving Repr

/-- Accessing `E.row[i]` (callers in kilo.c only do this in bounds). -/
def rowAt (rows : List Row) (i : Nat) : Row := rows.getD i default

/-- Mirror of the recursive tail of `editorUpdateSyntax`: update the
highlight of row `i` and, when its `hl_open_comment` changed and
`i + 1 < nbound`, continue with row `i + 1`.  `nbound` is the value of
`E.numrows` at call time (inside `editorInsertRow` that value is one
less than the length of the already-extended row array).  The fuel is
`nbound - i` at the outermost call; the recursion only happens when
`i + 1 < nbound`, so fuel is never exhausted before the C recursion
stops. -/
def scannedRow (rows : List Row) (i : Nat) (r : Row) : Row :=
  { r with
    hl := (scanRow r.render (decide (i > 0) && (rowAt rows (i - 1)).hl_open_comment)).1
    hl_open_comment := (scanRow r.render (decide (i > 0) && (rowAt rows (i - 1)).hl_open_comment)).2 }

/-- Continuation of `editorUpdateSyntax` as described above: the value
`in_comment` inherited by row `i` is `E.row[i-1].hl_open_comment`, the
row is rescanned (`scannedRow`), and when its recorded `hl_open_comment`
changed and `i + 1 < nbound`, the next row is refreshed recursively. -/
def updateSyntaxGo (syn : Bool) (nbound : Nat) : Nat → List Row → Nat → List Row
  | fuel, rows, i =>
    match rows[i]? with
    | none => rows
    | some r =>
      if syn then
        if r.hl_open_comment ≠ (scannedRow rows i r).hl_open_comment ∧ i + 1 < nbound then
          match fuel with
          | 0 => rows.set i (scannedRow rows i r)
          | fuel' + 1 => updateSyntaxGo syn nbound fuel' (rows.set i (scannedRow rows i r)) (i + 1)
        else rows.set i (scannedRow rows i r)
      else
        rows.set i { r with hl := List.replicate r.render.length Hl.normal }

/-- Mirror of `editorUpdateSyntax(&E.row[i])` with `E.numrows = nbound`. -/
def updateSyntaxAt (syn : Bool) (nbound : Nat) (rows : List Row) (i : Nat) : List Row :=
  updateSyntaxGo syn nbound (nbound - i) rows i

/-- Mirror of `editorUpdateRow(&E.row[i])`: rebuild `render` from
`chars`, then run `editorUpdateSyntax` on the row. -/
def editorUpdateRowAt (syn : Bool) (nbound : Nat) (rows : List Row) (i : Nat) : List Row :=
  match rows[i]? with
  | none => rows
  | some r => updateSyntaxAt syn nbound (rows.set i { r with render := renderChars r.chars }) i

/-- Mirror of `editorInsertRow(at, s, len)`: reject an out-of-range
index, insert the fresh row (render, hl empty, `hl_open_comment = 0`),
call `editorUpdateRow` on it (at which point `E.numrows` still holds the
old row count, hence `nbound = length - 1`), then increment `numrows`
and `dirty`. -/
def freshRow (s : List Char) : Row := { chars := s, render := [], hl := [], hl_open_comment := false }

/-- Shared tail of the row-editing operations: install the pre-modified
row array `rows1`, run `editorUpdateRow` on row `i` with `E.numrows =
rows1.length`, and increment `dirty`. -/
def withRowsUpd (st : EState) (rows1 : List Row) (i : Nat) : EState :=
  { st with rows := editorUpdateRowAt st.syntaxOn rows1.length rows1 i, dirty := st.dirty + 1 }

def editorInsertRow (st : EState) (at_ : Nat) (s : List Char) : EState :=
  if at_ > st.rows.length then st
  else
    { st with
      rows := editorUpdateRowAt st.syntaxOn ((st.rows.insertIdx at_ (freshRow s)).length - 1)
        (st.rows.insertIdx at_ (freshRow s)) at_
      dirty := st.dirty + 1 }

/-- Mirror of `editorDelRow(at)`.  The C guard is `at > E.numrows` (not
`>=`, an off-by-one the spec notes); at `at = numrows` the C code frees
and shifts past the end of the array, which is undefined behaviour — the
editor itself only calls this with `at = E.cy < numrows`.  The model
removes the row when it exists. -/
def editorDelRow (st : EState) (at_ : Nat) : EState :=
  if at_ > st.rows.length then st
  else { st with rows := st.rows.eraseIdx at_, dirty := st.dirty + 1 }

/-- Mirror of `editorRowInsertChar(&E.row[i], at, c)`: clamp `at` to
`[0, size]`, insert the byte, update the row, bump `dirty`. -/
def editorRowInsertChar (st : EState) (i : Nat) (at_ : Nat) (c : Char) : EState :=
  match st.rows[i]? with
  | none => st
  | some r =>
    withRowsUpd st (st.rows.set i { r with
      chars := r.chars.insertIdx (if at_ > r.chars.length then r.chars.length else at_) c }) i

/-- Mirror of `editorRowAppendString(&E.row[i], s, len)`. -/
def editorRowAppendString (st : EState) (i : Nat) (s : List Char) : EState :=
  match st.rows[i]? with
  | none => st
  | some r => withRowsUpd st (st.rows.set i { r with chars := r.chars ++ s }) i

/-- Mirror of `editorRowDelChar(&E.row[i], at)`: out-of-range is a
no-op, otherwise remove the byte and update the row. -/
def editorRowDelChar (st : EState) (i : Nat) (at_ : Nat) : EState :=
  match st.rows[i]? with
  | none => st
  | some r =>
    if at_ ≥ r.chars.length then st
    else withRowsUpd st (st.rows.set i { r with chars := r.chars.eraseIdx at_ }) i

/-- Mirror of `editorInsertChar(c)`: append an empty row when the cursor
sits one past the last row, insert at `(cx, cy)`, advance `cx`. -/
def bumpCx (st : EState) : EState := { st with cx := st.cx + 1 }

def editorInsertChar (st : EState) (c : Char) : EState :=
  if st.cy = st.rows.length then
    bumpCx (editorRowInsertChar (editorInsertRow st st.rows.length []) st.cy st.cx c)
  else
    bumpCx (editorRowInsertChar st st.cy st.cx c)

/-- Mirror of `editorInsertNewline()`: at column 0 insert an empty row
at `cy`; otherwise insert the tail of the current row at `cy + 1`, then
truncate the current row to `cx` characters and update it.  Finally
`cy` advances and `cx` becomes 0. -/
def truncateRowStep (st : EState) (cy cx : Nat) : EState :=
  match st.rows[cy]? with
  | none => st
  | some r' =>
    { st with rows := editorUpdateRowAt st.syntaxOn (st.rows.set cy { r' with chars := r'.chars.take cx }).length (st.rows.set cy { r' with chars := r'.chars.take cx }) cy }

/-- The `cx > 0` branch of `editorInsertNewline`: insert the tail of the
current row as a new row below, then truncate the current row to its
first `cx` characters and update it (no extra `dirty` increment beyond
the one inside `editorInsertRow`, as in the C code). -/
def splitRowStep (st : EState) : EState :=
  match st.rows[st.cy]? with
  | none => st
  | some r => truncateRowStep (editorInsertRow st (st.cy + 1) (r.chars.drop st.cx)) st.cy st.cx

def bumpCyNL (st : EState) : EState := { st with cy := st.cy + 1, cx := 0 }

def editorInsertNewline (st : EState) : EState :=
  if st.cx = 0 then bumpCyNL (editorInsertRow st st.cy [])
  else bumpCyNL (splitRowStep st)

/-- Mirror of `editorDelChar()`. -/
def mergeRowsStep (st : EState) : EState :=
  { editorDelRow (editorRowAppendString st (st.cy - 1) (rowAt st.rows st.cy).chars) st.cy with
    cx := (rowAt st.rows (st.cy - 1)).chars.length
    cy := st.cy - 1 }

def editorDelChar (st : EState) : EState :=
  if st.cy = st.rows.length then st
  else if st.cx = 0 ∧ st.cy = 0 then st
  else if st.cx > 0 then
    { editorRowDelChar st st.cy (st.cx - 1) with cx := st.cx - 1 }
  else mergeRowsStep st

/-- Mirror of `editorRowsToString`: every row's `chars` followed by a
newline byte. -/
def rowsToString (rows : List Row) : List Char :=
  (rows.map (fun r => r.chars ++ ['\n'])).flatten

/-- Mirror of the line splitting performed by `getline`: the first line
(up to and including its terminating newline, or the whole remainder at
end of file) and the rest of the content. -/
def splitLine : List Char → List Char × List Char
  | [] => ([], [])
  | c :: cs =>
    if c = '\n' then ([c], cs)
    else
      let p := splitLine cs
      (c :: p.1, p.2)

/-- Iterated `getline`: the list of lines of `content`, each keeping its
terminating newline when it has one.  The fuel `content.length` is an
upper bound on the number of (nonempty) lines. -/
def getLinesGo : Nat → List Char → List (List Char)
  | 0, _ => []
  | fuel + 1, s =>
    match s with
    | [] => []
    | c :: cs =>
      let p := splitLine (c :: cs)
      p.1 :: getLinesGo fuel p.2

/-- Lines of a file's content, as read by the `editorOpen` loop. -/
def getLines (content : List Char) : List (List Char) :=
  getLinesGo content.length content

/-- Mirror of the trailing `while (linelen > 0 && (line[linelen-1] ==
'\n' || line[linelen-1] == '\r')) linelen--;` of `editorOpen`. -/
def stripCRLF (l : List Char) : List Char :=
  (l.reverse.dropWhile (fun c => c = '\n' || c = '\r')).reverse

/-- Mirror of `editorOpen`: the file-type selection outcome is the
parameter `syn` (whether the new filename matches the built-in C entry);
every stripped line is appended with `editorInsertRow(E.numrows, ...)`;
finally `dirty` is reset.  The ghost `persisted` field records the
serialized buffer. -/
def finishOpen (st : EState) : EState :=
  { st with dirty := 0, persisted := rowsToString st.rows }

def editorOpen (st : EState) (syn : Bool) (content : List Char) : EState :=
  finishOpen ((getLines content).foldl
    (fun s line => editorInsertRow s s.rows.length (stripCRLF line)) { st with syntaxOn := syn })

/-- Mirror of `editorSave` for a state that already has a filename, with
the file-system outcome abstracted as `ok`: on success the buffer is
serialized and written, `dirty` clears and the byte-count message shows;
on failure nothing changes except the error message. -/
def editorSave (st : EState) (ok : Bool) : EState :=
  if ok then
    { st with
      dirty := 0
      persisted := rowsToString st.rows
      statusmsg := toString (rowsToString st.rows).length ++ " bytes written to disk" }
  else
    { st with statusmsg := "Cannot save! I/O error" }

/-- Key codes delivered by `editorReadKey`: a plain byte (which covers
Enter `'\r'`, ESC `'\x1b'`, the Ctrl-letter bytes 1..26 and BACKSPACE
127) or one of the `enum editorKey` values at 1000 and above. -/
inductive Key where
  | ch (c : Char)
  | arrowLeft
  | arrowRight
  | arrowUp
  | arrowDown
  | delKey
  | homeKey
  | endKey
  | pageUp
  | pageDown
deriving DecidableEq, Repr

/-- The byte Ctrl-Q sends (`CTRL_KEY('q')`). -/
def ctrlQ : Key := Key.ch (Char.ofNat 17)

/-- The byte Ctrl-S sends. -/
def ctrlS : Key := Key.ch (Char.ofNat 19)

/-- The byte Ctrl-F sends. -/
def ctrlF : Key := Key.ch (Char.ofNat 6)

/-- The byte Ctrl-H sends. -/
def ctrlH : Key := Key.ch (Char.ofNat 8)

/-- The byte Ctrl-L sends. -/
def ctrlL : Key := Key.ch (Char.ofNat 12)

/-- The ESC byte. -/
def escKey : Key := Key.ch '\x1b'

/-- The Enter byte. -/
def enterKey : Key := Key.ch '\r'

/-- The BACKSPACE byte 127. -/
def backspaceKey : Key := Key.ch (Char.ofNat 127)

/-- Mirror of the search loop of `editorFindCallback`: starting from
`current = lastMatch`, step by `direction` with wrap-around over
`[0, numrows)` for at most `numrows` iterations and return the first row
whose `render` contains `query`.  `fuel` is the loop counter `i`. -/
def findLoopGo (rows : List Row) (q : List Char) (d : Int) : Nat → Int → Option Nat
  | 0, _ => none
  | fuel + 1, cur =>
    let cur1 := cur + d
    let cur2 : Int :=
      if cur1 = -1 then (rows.length : Int) - 1
      else if cur1 = (rows.length : Int) then 0
      else cur1
    if (strstrIdx (rowAt rows cur2.toNat).render q).isSome then some cur2.toNat
    else findLoopGo rows q d fuel cur2

/-- The search loop with its full iteration budget `numrows`. -/
def findLoop (rows : List Row) (q : List Char) (lm d : Int) : Option Nat :=
  findLoopGo rows q d rows.length lm

/-- Mirror of the `memcpy(E.row[saved_hl_line].hl, saved_hl, rsize)`
restore at the top of `editorFindCallback`: the first `rsize` entries of
`hl` are overwritten from the saved copy. -/
def restoreHlAt (rows : List Row) (line : Nat) (saved : List Hl) : List Row :=
  match rows[line]? with
  | none => rows
  | some r => rows.set line { r with hl := saved.take r.render.length ++ r.hl.drop r.render.length }

/-- The restore step at the top of `editorFindCallback`: if a saved
highlight copy exists, write it back over the saved line's `hl` and
clear the static pointer. -/
def fcRestore (st : EState) : EState :=
  match st.savedHl with
  | some (line, saved) => { st with rows := restoreHlAt st.rows line saved, savedHl := none }
  | none => st

/-- The direction-setting step of `editorFindCallback` for a
non-Enter/ESC key. -/
def fcSetDir (st : EState) (k : Key) : EState :=
  if k = Key.arrowRight ∨ k = Key.arrowDown then { st with direction := 1 }
  else if k = Key.arrowLeft ∨ k = Key.arrowUp then { st with direction := -1 }
  else { st with lastMatch := -1, direction := 1 }

/-- Mirror of `if (last_match == -1) direction = 1;`. -/
def fcForce (st : EState) : EState :=
  if st.lastMatch = -1 then { st with direction := 1 } else st

/-- The search loop of `editorFindCallback` and the actions on a hit:
record `last_match`, move the cursor to the match, set
`rowoff = numrows`, save a copy of the row's `hl` (the copy is
`malloc(rsize)` bytes of which only `size` are initialised by the
`memcpy` — the rest is the arbitrary memory `junk`), and paint the match
span `HL_MATCH`. -/
def fcSearch (st : EState) (junk : Nat → Hl) (q : List Char) : EState :=
  match findLoop st.rows q st.lastMatch st.direction with
  | none => st
  | some cur =>
    { st with
      lastMatch := (cur : Int)
      cy := cur
      cx := rxToCx (rowAt st.rows cur).chars ((strstrIdx (rowAt st.rows cur).render q).getD 0)
      rowoff := st.rows.length
      savedHl := some (cur, (rowAt st.rows cur).hl.take (rowAt st.rows cur).chars.length ++
        (List.range ((rowAt st.rows cur).render.length - (rowAt st.rows cur).chars.length)).map junk)
      rows := st.rows.set cur { rowAt st.rows cur with
        hl := setRange (rowAt st.rows cur).hl ((strstrIdx (rowAt st.rows cur).render q).getD 0)
          q.length Hl.matched } }

/-- Mirror of one invocation of `editorFindCallback(query, key)`. -/
def findCallbackStep (st : EState) (junk : Nat → Hl) (q : List Char) (k : Key) : EState :=
  if k = enterKey ∨ k = escKey then
    { fcRestore st with lastMatch := -1, direction := 1 }
  else
    fcSearch (fcForce (fcSetDir (fcRestore st) k)) junk q

/-- One prompt iteration of an incremental-search session: the current
prompt buffer, the key pressed, and the uninitialised-memory contents
used if this invocation saves a highlight copy. -/
structure FindEv where
  q : List Char
  key : Key
  junk : Nat → Hl

/-- One whole interaction with the search prompt: the intermediate
prompt iterations, the final buffer, the garbage memory for the final
callback call, and whether the prompt ended with ESC (cancelled) or
Enter. -/
structure FindScript where
  evs : List FindEv
  lastQ : List Char
  lastJunk : Nat → Hl
  cancelled : Bool

/-- Mirror of `editorFind()` driving `editorPrompt` with
`editorFindCallback`: the callback runs once per prompt iteration (the
events over-approximate the buffer/key sequences the prompt can
produce), and once more with the final buffer and Enter or ESC when the
prompt commits or cancels (this final call is what resets `last_match`
and `direction` and restores the saved highlight).  If the prompt was
cancelled with ESC, `cx`, `cy`, `coloff` and `rowoff` are restored to
their values at entry. -/
def findSession (st : EState) (fs : FindScript) : EState :=
  if fs.cancelled then
    { findCallbackStep (fs.evs.foldl (fun s ev => findCallbackStep s ev.junk ev.q ev.key) st)
        fs.lastJunk fs.lastQ escKey with
      cx := st.cx
      cy := st.cy
      coloff := st.coloff
      rowoff := st.rowoff }
  else
    findCallbackStep (fs.evs.foldl (fun s ev => findCallbackStep s ev.junk ev.q ev.key) st)
      fs.lastJunk fs.lastQ enterKey

/-- Mirror of `editorMoveCursor(key)` (arrow keys only; other keys fall
through the `switch` and still get the final `cx` clamp). -/
def moveCursorSwitch (st : EState) (k : Key) : EState :=
  match k with
  | Key.arrowLeft =>
    if st.cx ≠ 0 then { st with cx := st.cx - 1 }
    else if st.cy > 0 then { st with cy := st.cy - 1, cx := (rowAt st.rows (st.cy - 1)).chars.length }
    else st
  | Key.arrowRight =>
    if st.cy < st.rows.length then
      if st.cx < (rowAt st.rows st.cy).chars.length then { st with cx := st.cx + 1 }
      else if st.cx = (rowAt st.rows st.cy).chars.length then { st with cy := st.cy + 1, cx := 0 }
      else st
    else st
  | Key.arrowUp => if st.cy ≠ 0 then { st with cy := st.cy - 1 } else st
  | Key.arrowDown => if st.cy < st.rows.length then { st with cy := st.cy + 1 } else st
  | _ => st

/-- The trailing clamp of `editorMoveCursor`: snap `cx` to the length of
the (possibly new) current row. -/
def clampCx (st : EState) : EState :=
  if st.cx > (if st.cy < st.rows.length then (rowAt st.rows st.cy).chars.length else 0) then
    { st with cx := if st.cy < st.rows.length then (rowAt st.rows st.cy).chars.length else 0 }
  else st

def editorMoveCursor (st : EState) (k : Key) : EState :=
  clampCx (moveCursorSwitch st k)

/-- Mirror of `editorScroll()`. -/
def scrollRx (st : EState) : Nat :=
  if st.cy < st.rows.length then cxToRx (rowAt st.rows st.cy).chars st.cx else 0

def scrollRowoff (st : EState) : Nat :=
  if st.cy ≥ (if st.cy < st.rowoff then st.cy else st.rowoff) + st.screenrows then
    st.cy + 1 - st.screenrows
  else (if st.cy < st.rowoff then st.cy else st.rowoff)

def scrollColoff (st : EState) : Nat :=
  if scrollRx st ≥ (if scrollRx st < st.coloff then scrollRx st else st.coloff) + st.screencols then
    scrollRx st + 1 - st.screencols
  else (if scrollRx st < st.coloff then scrollRx st else st.coloff)

def editorScroll (st : EState) : EState :=
  { st with rx := scrollRx st, rowoff := scrollRowoff st, coloff := scrollColoff st }

/-- Iterating `editorMoveCursor` as the Page Up / Page Down handler
does (`int times = E.screenrows; while (times--) ...`). -/
def moveTimes (st : EState) (k : Key) : Nat → EState
  | 0 => st
  | n + 1 => moveTimes (editorMoveCursor st k) k n

/-- Warning message shown by the Ctrl-Q handler while `dirty` is set. -/
def quitWarn (n : Nat) : String :=
  "WARNING!!! File has unsaved changes. Press Ctrl-Q " ++ toString n ++ " more times to quit."

/-- Mirror of `editorProcessKeypress()` for the key `c` just read.  The
function-local `static int quit_times` lives in the state.  The two
interactive sub-dialogues are abstracted by parameters: `fs` describes
the incremental-search prompt session run by Ctrl-F, and `saveOk` the
file-system outcome of Ctrl-S.  The returned Bool is `true` exactly when
the C function calls `exit(0)`; every path except the Ctrl-Q warning
return and the exit resets `quit_times` to `KILO_QUIT_TIMES = 3`. -/
def procKey (st : EState) (k : Key) (fs : FindScript) (saveOk : Bool) :
    EState × Bool :=
  if k = enterKey then
    ({ editorInsertNewline st with quitTimes := 3 }, false)
  else if k = ctrlQ then
    if st.dirty ≠ 0 ∧ st.quitTimes > 0 then
      ({ st with statusmsg := quitWarn st.quitTimes, quitTimes := st.quitTimes - 1 }, false)
    else (st, true)
  else if k = ctrlS then
    ({ editorSave st saveOk with quitTimes := 3 }, false)
  else if k = Key.homeKey then
    ({ st with cx := 0, quitTimes := 3 }, false)
  else if k = Key.endKey then
    if st.cy < st.rows.length then
      ({ st with cx := (rowAt st.rows st.cy).chars.length, quitTimes := 3 }, false)
    else ({ st with quitTimes := 3 }, false)
  else if k = ctrlF then
    ({ findSession st fs with quitTimes := 3 }, false)
  else if k = backspaceKey ∨ k = ctrlH ∨ k = Key.delKey then
    ({ editorDelChar (if k = Key.delKey then editorMoveCursor st Key.arrowRight else st) with
      quitTimes := 3 }, false)
  else if k = Key.pageUp then
    ({ moveTimes { st with cy := st.rowoff } Key.arrowUp st.screenrows with quitTimes := 3 }, false)
  else if k = Key.pageDown then
    ({ moveTimes { st with cy := if st.rowoff + st.screenrows - 1 > st.rows.length
          then st.rows.length else st.rowoff + st.screenrows - 1 } Key.arrowDown st.screenrows with
      quitTimes := 3 }, false)
  else if k = Key.arrowUp ∨ k = Key.arrowDown ∨ k = Key.arrowLeft ∨ k = Key.arrowRight then
    ({ editorMoveCursor st k with quitTimes := 3 }, false)
  else if k = ctrlL ∨ k = escKey then
    ({ st with quitTimes := 3 }, false)
  else
    match k with
    | Key.ch c => ({ editorInsertChar st c with quitTimes := 3 }, false)
    | _ => ({ st with quitTimes := 3 }, false)

/-- Mirror of `initEditor()` for a terminal whose drawable region is
`sr × sc` (the C code subtracts 2 status lines from the window height
before the loop starts). -/
def initState (sr sc : Nat) : EState where
  cx := 0
  cy := 0
  rx := 0
  rowoff := 0
  coloff := 0
  screenrows := sr
  screencols := sc
  rows := []
  dirty := 0
  syntaxOn := false
  statusmsg := ""
  quitTimes := 3
  lastMatch := -1
  direction := 1
  savedHl := none
  persisted := []

/-- An empty find script (the prompt opened and was immediately
cancelled). -/
def noScript : FindScript := ⟨[], [], fun _ => Hl.normal, true⟩

/-- Decidable check of the comment-state propagation invariant: every
row's highlight and `hl_open_comment` agree with a scan of its render
whose incoming in-comment state is the previous row's
`hl_open_comment`. -/
def hlConsistentB (rows : List Row) : Bool :=
  (List.range rows.length).all fun i =>
    let r := rowAt rows i
    let inc := decide (i > 0) && (rowAt rows (i - 1)).hl_open_comment
    let res := scanRow r.render inc
    r.hl == res.1 && r.hl_open_comment == res.2

end Kilo

namespace Kilo

/-! ### Claim C1: the quit guard -/

/-- Concrete editor state with one unsaved change and a fresh quit
counter. -/
def c1state : EState := { initState 20 80 with dirty := 1 }

/-- C1, counterexample.  The claim says that from a dirty state with a
fresh quit counter the third Ctrl-Q press exits.  In the code the guard
is `if (E.dirty && quit_times > 0)` with `quit_times` starting at
`KILO_QUIT_TIMES = 3` and post-decrement semantics, so the first three
presses all warn (counts 3, 2, 1) and only the fourth press reaches
`exit(0)`: at the concrete state below, the third press returns with the
editor still running. -/
theorem C1_third_press_does_not_exit :
    c1state.dirty > 0 ∧ c1state.quitTimes = 3 ∧
    (procKey c1state ctrlQ noScript false).2 = false ∧
    (procKey (procKey c1state ctrlQ noScript false).1 ctrlQ noScript false).2 = false ∧
    (procKey (procKey (procKey c1state ctrlQ noScript false).1 ctrlQ noScript false).1
      ctrlQ noScript false).2 = false := by
  refine ⟨by decide, rfl, rfl, rfl, rfl⟩

/-- Computation rule of `procKey` at Ctrl-Q: warn and decrement while
`dirty` is set and the counter is positive, otherwise exit. -/
theorem procKey_ctrlQ (st : EState) (fs : FindScript) (sv : Bool) :
    procKey st ctrlQ fs sv =
      if st.dirty ≠ 0 ∧ st.quitTimes > 0 then
        ({ st with statusmsg := quitWarn st.quitTimes, quitTimes := st.quitTimes - 1 }, false)
      else (st, true) := by
  unfold procKey
  rw [if_neg (by decide), if_pos rfl]

/-- Every non-Ctrl-Q key resets the quit counter to 3 (the reset at the
bottom of `editorProcessKeypress` runs on every path that is not the
Ctrl-Q warning return or the exit). -/
theorem procKey_resets_quitTimes (st : EState) (k : Key) (fs : FindScript) (sv : Bool)
    (hk : k ≠ ctrlQ) : (procKey st k fs sv).1.quitTimes = 3 := by
  cases k with
  | ch c =>
    unfold procKey
    split_ifs <;> rfl
  | arrowLeft => rfl
  | arrowRight => rfl
  | arrowUp => rfl
  | arrowDown => rfl
  | delKey => rfl
  | homeKey => rfl
  | endKey => unfold procKey; split_ifs <;> rfl
  | pageUp => rfl
  | pageDown => rfl

/-- C1, amended.  With `dirty > 0` and a fresh counter, the first three
Ctrl-Q presses only set the warning status message (with remaining
counts 3, 2, 1) and decrement the counter without exiting; the fourth
press exits; and processing any non-Ctrl-Q key leaves the counter at
`KILO_QUIT_TIMES = 3`. -/
theorem C1_quit_guard (st : EState) (hd : st.dirty ≠ 0) (hq : st.quitTimes = 3) :
    (procKey st ctrlQ noScript false).1 =
      { st with statusmsg := quitWarn 3, quitTimes := 2 } ∧
    (procKey st ctrlQ noScript false).2 = false ∧
    (procKey (procKey st ctrlQ noScript false).1 ctrlQ noScript false).1 =
      { st with statusmsg := quitWarn 2, quitTimes := 1 } ∧
    (procKey (procKey st ctrlQ noScript false).1 ctrlQ noScript false).2 = false ∧
    (procKey (procKey (procKey st ctrlQ noScript false).1 ctrlQ noScript false).1
        ctrlQ noScript false).1 =
      { st with statusmsg := quitWarn 1, quitTimes := 0 } ∧
    (procKey (procKey (procKey st ctrlQ noScript false).1 ctrlQ noScript false).1
        ctrlQ noScript false).2 = false ∧
    (procKey (procKey (procKey (procKey st ctrlQ noScript false).1 ctrlQ noScript false).1
        ctrlQ noScript false).1 ctrlQ noScript false).2 = true ∧
    (∀ (k : Key) (fs : FindScript) (sv : Bool), k ≠ ctrlQ →
      ((procKey st k fs sv).1.quitTimes = 3 ∨ (procKey st k fs sv).2 = true)) := by
  have warn : ∀ s : EState, s.dirty ≠ 0 → 0 < s.quitTimes →
      procKey s ctrlQ noScript false =
        ({ s with statusmsg := quitWarn s.quitTimes, quitTimes := s.quitTimes - 1 }, false) := by
    intro s h1 h2
    rw [procKey_ctrlQ, if_pos ⟨h1, h2⟩]
  have e1 : (procKey st ctrlQ noScript false).1 =
      { st with statusmsg := quitWarn 3, quitTimes := 2 } := by
    rw [warn st hd (by omega), hq]
  have x1 : (procKey st ctrlQ noScript false).2 = false := by
    rw [warn st hd (by omega)]
  have e2 : (procKey (procKey st ctrlQ noScript false).1 ctrlQ noScript false).1 =
      { st with statusmsg := quitWarn 2, quitTimes := 1 } := by
    rw [e1, warn { st with statusmsg := quitWarn 3, quitTimes := 2 } hd (Nat.zero_lt_succ 1)]
    rfl
  have x2 : (procKey (procKey st ctrlQ noScript false).1 ctrlQ noScript false).2 = false := by
    rw [e1, warn { st with statusmsg := quitWarn 3, quitTimes := 2 } hd (Nat.zero_lt_succ 1)]
  have e3 : (procKey (procKey (procKey st ctrlQ noScript false).1 ctrlQ noScript false).1
      ctrlQ noScript false).1 = { st with statusmsg := quitWarn 1, quitTimes := 0 } := by
    rw [e2, warn { st with statusmsg := quitWarn 2, quitTimes := 1 } hd (Nat.zero_lt_succ 0)]
    rfl
  have x3 : (procKey (procKey (procKey st ctrlQ noScript false).1 ctrlQ noScript false).1
      ctrlQ noScript false).2 = false := by
    rw [e2, warn { st with statusmsg := quitWarn 2, quitTimes := 1 } hd (Nat.zero_lt_succ 0)]
  have x4 : (procKey (procKey (procKey (procKey st ctrlQ noScript false).1 ctrlQ noScript
      false).1 ctrlQ noScript false).1 ctrlQ noScript false).2 = true := by
    rw [e3, procKey_ctrlQ, if_neg (fun h => absurd h.2 (Nat.lt_irrefl 0))]
  exact ⟨e1, x1, e2, x2, e3, x3, x4, fun k fs sv hk =>
    Or.inl (procKey_resets_quitTimes st k fs sv hk)⟩

/-- C1, witness: the amended quit-guard theorem applied at the concrete
dirty state. -/
theorem C1_quit_guard_witness :
    (procKey c1state ctrlQ noScript false).1 =
      { c1state with statusmsg := quitWarn 3, quitTimes := 2 } ∧
    (procKey c1state ctrlQ noScript false).2 = false ∧
    (procKey (procKey c1state ctrlQ noScript false).1 ctrlQ noScript false).1 =
      { c1state with statusmsg := quitWarn 2, quitTimes := 1 } ∧
    (procKey (procKey c1state ctrlQ noScript false).1 ctrlQ noScript false).2 = false ∧
    (procKey (procKey (procKey c1state ctrlQ noScript false).1 ctrlQ noScript false).1
        ctrlQ noScript false).1 =
      { c1state with statusmsg := quitWarn 1, quitTimes := 0 } ∧
    (procKey (procKey (procKey c1state ctrlQ noScript false).1 ctrlQ noScript false).1
        ctrlQ noScript false).2 = false ∧
    (procKey (procKey (procKey (procKey c1state ctrlQ noScript false).1 ctrlQ noScript false).1
        ctrlQ noScript false).1 ctrlQ noScript false).2 = true ∧
    (∀ (k : Key) (fs : FindScript) (sv : Bool), k ≠ ctrlQ →
      ((procKey c1state k fs sv).1.quitTimes = 3 ∨ (procKey c1state k fs sv).2 = true)) :=
  C1_quit_guard c1state (by decide) (by decide)

/-! ### Claim C3: coordinate round-trip -/

/-- The render-width accumulator of `editorRowCxToRx` never decreases. -/
theorem cxToRxGo_le (l : List Char) : ∀ rx0 : Nat, rx0 ≤ cxToRxGo l rx0 := by
  induction l with
  | nil => intro rx0; exact Nat.le_refl rx0
  | cons c cs ih =>
    intro rx0
    calc rx0 ≤ rx0 + (if c = '\t' then (8 - 1) - rx0 % 8 + 1 else 1) := Nat.le_add_right _ _
      _ ≤ cxToRxGo cs (rx0 + (if c = '\t' then (8 - 1) - rx0 % 8 + 1 else 1)) := ih _
      _ = cxToRxGo (c :: cs) rx0 := rfl

/-- Generalised round-trip: running the `editorRowRxToCx` loop on the
width of the first `cx` characters, from matching accumulators, stops
after exactly `cx` more steps. -/
theorem rxToCx_roundtrip_go (l : List Char) :
    ∀ (cx rx0 cnt : Nat), cx ≤ l.length →
      rxToCxGo l (cxToRxGo (l.take cx) rx0) rx0 cnt = cnt + cx := by
  induction l with
  | nil =>
    intro cx rx0 cnt h
    have hcx : cx = 0 := Nat.le_zero.mp h
    subst hcx
    rfl
  | cons c cs ih =>
    intro cx rx0 cnt h
    cases cx with
    | zero =>
      by_cases hc : c = '\t' <;>
        simp only [List.take_zero, cxToRxGo, rxToCxGo, hc, if_true, if_false] <;>
        rw [if_pos (by omega)] <;> omega
    | succ cx' =>
      have hcs : cx' ≤ cs.length := by simpa using h
      have hle := cxToRxGo_le (cs.take cx')
        (rx0 + (if c = '\t' then (8 - 1) - rx0 % 8 + 1 else 1))
      by_cases hc : c = '\t' <;>
        simp only [List.take_succ_cons, cxToRxGo, rxToCxGo, hc, if_true, if_false] <;>
        simp only [hc, if_true, if_false] at hle <;>
        rw [if_neg (by omega)] <;>
        rw [ih cx' _ (cnt + 1) hcs] <;>
        omega

/-- C3: for every row and every `cx` in `[0, size]`,
`editorRowRxToCx(row, editorRowCxToRx(row, cx)) == cx`: the two
coordinate maps are mutually inverse on the valid cursor columns. -/
theorem C3_coordinate_roundtrip (chars : List Char) (cx : Nat) (h : cx ≤ chars.length) :
    rxToCx chars (cxToRx chars cx) = cx := by
  unfold rxToCx cxToRx
  simpa using rxToCx_roundtrip_go chars cx 0 0 h

/-- C3, witness: the round-trip theorem applied to the row `"\tab\tc"`
at `cx = 3`. -/
theorem C3_coordinate_roundtrip_witness :
    3 ≤ ("\tab\tc".toList).length ∧
      rxToCx ("\tab\tc".toList) (cxToRx ("\tab\tc".toList) 3) = 3 :=
  ⟨by decide, C3_coordinate_roundtrip ("\tab\tc".toList) 3 (by decide)⟩

/-! ### Claim C4: tab expansion -/

/-- Specification-side description of tab expansion, following the
claim's words: each tab byte is replaced by between 1 and 8 spaces whose
last space ends immediately before a render column that is a multiple of
8, and every other byte is kept unchanged in the same relative order.
`Expands idx chars render` reads: starting at render column `idx`,
`render` is a correct expansion of `chars`. -/
inductive Expands : Nat → List Char → List Char → Prop
  | nil (idx : Nat) : Expands idx [] []
  | tab (idx k : Nat) (cs r : List Char) (h1 : 1 ≤ k) (h2 : k ≤ 8)
      (h3 : (idx + k) % 8 = 0) (hrec : Expands (idx + k) cs r) :
      Expands idx ('\t' :: cs) (List.replicate k ' ' ++ r)
  | chr (idx : Nat) (c : Char) (cs r : List Char) (hc : c ≠ '\t')
      (hrec : Expands (idx + 1) cs r) :
      Expands idx (c :: cs) (c :: r)

/-- The padding loop emits spaces up to the next multiple of 8. -/
theorem padGo_eq (f : Nat) : ∀ idx : Nat, (8 - idx % 8) % 8 ≤ f →
    padGo f idx = List.replicate ((8 - idx % 8) % 8) ' ' := by
  induction f with
  | zero =>
    intro idx h
    have h0 : (8 - idx % 8) % 8 = 0 := by omega
    rw [h0]
    rfl
  | succ f ih =>
    intro idx h
    by_cases hz : idx % 8 = 0
    · have h0 : (8 - idx % 8) % 8 = 0 := by omega
      rw [h0]
      simp [padGo, hz]
    · have hm : (8 - idx % 8) % 8 = ((8 - (idx + 1) % 8) % 8) + 1 := by omega
      have hf : (8 - (idx + 1) % 8) % 8 ≤ f := by omega
      simp only [padGo, hz, ne_eq, not_false_eq_true, if_true]
      rw [ih (idx + 1) hf, hm, List.replicate_succ]

/-- One tab emits exactly `8 - idx % 8` spaces. -/
theorem tabRun_eq (idx : Nat) : tabRun idx = List.replicate (8 - idx % 8) ' ' := by
  unfold tabRun
  rw [padGo_eq 7 (idx + 1) (by omega)]
  have h : 8 - idx % 8 = ((8 - (idx + 1) % 8) % 8) + 1 := by omega
  rw [h, List.replicate_succ]

/-- The render built by `editorUpdateRow` is a correct tab expansion
from any starting column. -/
theorem renderGo_expands (chars : List Char) : ∀ idx : Nat, Expands idx chars (renderGo idx chars) := by
  induction chars with
  | nil => intro idx; exact Expands.nil idx
  | cons c cs ih =>
    intro idx
    by_cases hc : c = '\t'
    · subst hc
      have hlen : (tabRun idx).length = 8 - idx % 8 := by
        rw [tabRun_eq]; exact List.length_replicate _ _
      simp only [renderGo, if_true, hlen, tabRun_eq, List.length_replicate]
      exact Expands.tab idx (8 - idx % 8) cs _ (by omega) (by omega) (by omega) (ih _)
    · simp only [renderGo, hc, if_false]
      exact Expands.chr idx c cs _ hc (ih _)

/-- C4: after `editorUpdateRow`, each tab byte of `chars` is replaced in
`render` by between 1 and 8 space bytes whose last space ends
immediately before a column index that is a multiple of 8 (tab stop
width `KILO_TAB_STOP = 8`), and every non-tab byte of `chars` appears
unchanged in `render` in the same relative order. -/
theorem C4_tab_expansion (chars : List Char) : Expands 0 chars (renderChars chars) :=
  renderGo_expands chars 0

/-! ### Shape lemmas: the highlighter only rewrites `hl` and
`hl_open_comment`, never `chars`, `render` or the number of rows. -/

/-- Applying `memset` to a highlight array preserves its length. -/
theorem setRange_length (hl : List Hl) (i len : Nat) (v : Hl) :
    (setRange hl i len v).length = hl.length := by
  simp [setRange]

/-- The scanning loop preserves the length of the highlight array. -/
theorem scanGo_hl_length (render : List Char) :
    ∀ (fuel : Nat) (st : ScanSt), (scanGo render fuel st).1.length = st.hl.length := by
  intro fuel
  induction fuel with
  | zero => intro st; rfl
  | succ f ih =>
    intro st
    show (scanGo render (f + 1) st).1.length = st.hl.length
    simp only [scanGo]
    split_ifs <;>
      (try rcases hk : findKeyword render st.i cKeywords with _ | ⟨klen, kw2⟩) <;>
      simp [*, ih, setRange_length, List.length_set]

/-- The highlight array produced for a row has one entry per render
byte. -/
theorem scanRow_length (render : List Char) (inc : Bool) :
    (scanRow render inc).1.length = render.length := by
  unfold scanRow
  rw [scanGo_hl_length]
  exact List.length_replicate _ _

/-- The propagation loop preserves the number of rows. -/
theorem updateSyntaxGo_length (syn : Bool) (nb : Nat) :
    ∀ (fuel : Nat) (rows : List Row) (i : Nat),
      (updateSyntaxGo syn nb fuel rows i).length = rows.length := by
  intro fuel
  induction fuel with
  | zero =>
    intro rows i
    unfold updateSyntaxGo
    split
    · rfl
    · split_ifs <;> simp [List.length_set]
  | succ f ih =>
    intro rows i
    unfold updateSyntaxGo
    split
    · rfl
    · split_ifs <;> simp [ih, List.length_set]

/-- The propagation loop never touches `chars` or `render` of any
row. -/
theorem updateSyntaxGo_chars_render (syn : Bool) (nb : Nat) :
    ∀ (fuel : Nat) (rows : List Row) (i j : Nat),
      ((updateSyntaxGo syn nb fuel rows i)[j]?).map (fun r => (r.chars, r.render)) =
        (rows[j]?).map (fun r => (r.chars, r.render)) := by
  have hset : ∀ (rows : List Row) (i : Nat) (r r' : Row), rows[i]? = some r →
      r'.chars = r.chars → r'.render = r.render → ∀ j : Nat,
      ((rows.set i r')[j]?).map (fun q : Row => (q.chars, q.render)) =
        (rows[j]?).map (fun q : Row => (q.chars, q.render)) := by
    intro rows i r r' hr hc hrd j
    by_cases hij : i = j
    · subst hij
      have hi : i < rows.length := (List.getElem?_eq_some_iff.mp hr).1
      rw [List.getElem?_set_self', hr]
      simp [hc, hrd]
    · rw [List.getElem?_set_ne hij]
  intro fuel
  induction fuel with
  | zero =>
    intro rows i j
    unfold updateSyntaxGo
    split
    · rfl
    · rename_i r hr
      split_ifs <;>
        first
          | exact hset rows i r (scannedRow rows i r) hr rfl rfl j
          | exact hset rows i r { r with hl := List.replicate r.render.length Hl.normal }
              hr rfl rfl j
  | succ f ih =>
    intro rows i j
    unfold updateSyntaxGo
    split
    · rfl
    · rename_i r hr
      split_ifs with h1 h2
      · exact (ih (rows.set i (scannedRow rows i r)) (i + 1) j).trans
          (hset rows i r (scannedRow rows i r) hr rfl rfl j)
      · exact hset rows i r (scannedRow rows i r) hr rfl rfl j
      · exact hset rows i r { r with hl := List.replicate r.render.length Hl.normal }
          hr rfl rfl j

/-- After `editorUpdateRow` on row `i`, the row count is unchanged. -/
theorem editorUpdateRowAt_length (syn : Bool) (nb : Nat) (rows : List Row) (i : Nat) :
    (editorUpdateRowAt syn nb rows i).length = rows.length := by
  unfold editorUpdateRowAt updateSyntaxAt
  rcases hr : rows[i]? with _ | r
  · rfl
  · rw [updateSyntaxGo_length]
    exact List.length_set _ _ _

/-- After `editorUpdateRow` on row `i`, every row's `chars` is
unchanged. -/
theorem editorUpdateRowAt_chars (syn : Bool) (nb : Nat) (rows : List Row) (i j : Nat) :
    ((editorUpdateRowAt syn nb rows i)[j]?).map (fun r => r.chars) =
      (rows[j]?).map (fun r => r.chars) := by
  unfold editorUpdateRowAt updateSyntaxAt
  rcases hr : rows[i]? with _ | r
  · rfl
  · have h1 := updateSyntaxGo_chars_render syn nb (nb - i)
      (rows.set i { r with render := renderChars r.chars }) i j
    have h2 : ∀ (l : List Row) (j : Nat),
        ((l[j]?).map (fun q => (q.chars, q.render))).map Prod.fst = (l[j]?).map (fun q => q.chars) := by
      intro l j
      rcases l[j]? with _ | q <;> rfl
    have h3 := congrArg (Option.map Prod.fst) h1
    rw [h2, h2] at h3
    rw [h3]
    by_cases hij : i = j
    · subst hij
      rw [List.getElem?_set_self', hr]
      rfl
    · rw [List.getElem?_set_ne hij]

/-- Two row lists with elementwise equal `chars` have equal `chars`
maps. -/
theorem map_chars_eq_of_getElem (l1 l2 : List Row)
    (h : ∀ j : Nat, (l1[j]?).map (fun r : Row => r.chars) = (l2[j]?).map (fun r : Row => r.chars)) :
    l1.map (fun r : Row => r.chars) = l2.map (fun r : Row => r.chars) := by
  apply List.ext_getElem?
  intro j
  rw [List.getElem?_map, List.getElem?_map]
  exact h j

/-! ### Claim C6: the open/save round-trip -/

/-- The two halves returned by `splitLine` reassemble the input. -/
theorem splitLine_append : ∀ s : List Char, (splitLine s).1 ++ (splitLine s).2 = s := by
  intro s
  induction s with
  | nil => rfl
  | cons c cs ih =>
    unfold splitLine
    by_cases hc : c = '\n' <;> simp [hc, ih]

/-- The first line returned by `getline` on a nonempty input is
nonempty. -/
theorem splitLine_fst_ne_nil (c : Char) (cs : List Char) : (splitLine (c :: cs)).1 ≠ [] := by
  unfold splitLine
  by_cases hc : c = '\n' <;> simp [hc]

/-- A line delivered by `getline` either is the whole newline-free
remainder, or consists of a newline-free body followed by exactly one
`'\n'`. -/
theorem splitLine_cases : ∀ s : List Char,
    ((splitLine s).1 = s ∧ (splitLine s).2 = [] ∧ '\n' ∉ s) ∨
      (∃ b : List Char, (splitLine s).1 = b ++ ['\n'] ∧ '\n' ∉ b) := by
  intro s
  induction s with
  | nil => exact Or.inl ⟨rfl, rfl, by simp⟩
  | cons c cs ih =>
    by_cases hc : c = '\n'
    · subst hc
      exact Or.inr ⟨[], by simp [splitLine], by simp⟩
    · rcases ih with ⟨h1, h2, h3⟩ | ⟨b, hb, hnb⟩
      · refine Or.inl ⟨?_, ?_, ?_⟩
        · simp [splitLine, hc, h1]
        · simp [splitLine, hc, h2]
        · intro hmem
          rcases List.mem_cons.mp hmem with h | h
          · exact hc h.symm
          · exact h3 h
      · refine Or.inr ⟨c :: b, ?_, ?_⟩
        · simp [splitLine, hc, hb]
        · intro hmem
          rcases List.mem_cons.mp hmem with h | h
          · exact hc h.symm
          · exact hnb h

/-- Dropping leading newline/CR bytes from a list containing none of
them does nothing. -/
theorem dropWhile_nlcr_eq_self (l : List Char)
    (h : ∀ c ∈ l, ¬((c = '\n' || c = '\r') = true)) :
    l.dropWhile (fun c => c = '\n' || c = '\r') = l := by
  cases l with
  | nil => rfl
  | cons a t =>
    rw [List.dropWhile_cons, if_neg]
    exact h a (List.mem_cons_self a t)

/-- Stripping a line consisting of a CR/LF-free body plus one newline
returns the body. -/
theorem stripCRLF_line (b : List Char) (hn : '\n' ∉ b) (hr : '\r' ∉ b) :
    stripCRLF (b ++ ['\n']) = b := by
  unfold stripCRLF
  rw [List.reverse_append, List.reverse_singleton, List.singleton_append, List.dropWhile_cons,
    if_pos (by simp), dropWhile_nlcr_eq_self, List.reverse_reverse]
  intro c hc
  have hcb : c ∈ b := List.mem_reverse.mp hc
  simp only [Bool.or_eq_true, decide_eq_true_eq, not_or]
  exact ⟨fun h => hn (h ▸ hcb), fun h => hr (h ▸ hcb)⟩

/-- Serialisation of a list of raw lines as `editorOpen` plus
`editorRowsToString` would produce it: each line stripped, then written
back with a trailing newline. -/
def serializeLines (ls : List (List Char)) : List Char :=
  (ls.map (fun l => stripCRLF l ++ ['\n'])).flatten

/-- Round trip of the `getline` loop for CR-free content whose last byte
is a newline: stripping each line and putting the newlines back yields
the original content. -/
theorem getLinesGo_serialize : ∀ (fuel : Nat) (s : List Char), s.length ≤ fuel →
    '\r' ∉ s → (s = [] ∨ s.getLast? = some '\n') →
    serializeLines (getLinesGo fuel s) = s := by
  intro fuel
  induction fuel with
  | zero =>
    intro s hf _ _
    have hs : s = [] := List.eq_nil_of_length_eq_zero (Nat.le_zero.mp hf)
    subst hs
    rfl
  | succ f ih =>
    intro s hf hcr hnl
    cases s with
    | nil => rfl
    | cons c cs =>
      have hlast : (c :: cs).getLast? = some '\n' := by
        rcases hnl with h | h
        · exact absurd h (List.cons_ne_nil c cs)
        · exact h
      have hmemnl : '\n' ∈ c :: cs := List.mem_of_mem_getLast? (by rw [hlast]; rfl)
      have happ := splitLine_append (c :: cs)
      rcases splitLine_cases (c :: cs) with ⟨_, _, h3⟩ | ⟨b, hb, hnb⟩
      · exact absurd hmemnl h3
      · have hrb : '\r' ∉ b := by
          intro hmem
          apply hcr
          rw [← happ, hb]
          exact List.mem_append_left _ (List.mem_append_left _ hmem)
        have hstrip : stripCRLF (splitLine (c :: cs)).1 = b := by
          rw [hb]
          exact stripCRLF_line b hnb hrb
        have hlen2 : (splitLine (c :: cs)).2.length ≤ f := by
          have h1 : (splitLine (c :: cs)).1.length + (splitLine (c :: cs)).2.length
              = cs.length + 1 := by
            rw [← List.length_append, happ]
            rfl
          have h2 : 1 ≤ (splitLine (c :: cs)).1.length := by
            rw [hb]
            simp
          have h3 : (c :: cs).length = cs.length + 1 := rfl
          omega
        have hcr2 : '\r' ∉ (splitLine (c :: cs)).2 := by
          intro hmem
          apply hcr
          rw [← happ]
          exact List.mem_append_right _ hmem
        have hnl2 : (splitLine (c :: cs)).2 = [] ∨
            ((splitLine (c :: cs)).2).getLast? = some '\n' := by
          by_cases h2 : (splitLine (c :: cs)).2 = []
          · exact Or.inl h2
          · refine Or.inr ?_
            rw [← List.getLast?_append_of_ne_nil _ h2, happ]
            exact hlast
        show serializeLines ((splitLine (c :: cs)).1 :: getLinesGo f (splitLine (c :: cs)).2)
          = c :: cs
        unfold serializeLines
        rw [List.map_cons, List.flatten_cons, hstrip]
        have hrest := ih (splitLine (c :: cs)).2 hlen2 hcr2 hnl2
        unfold serializeLines at hrest
        rw [hrest, ← hb]
        exact happ

/-- Serialisation rewritten through the `chars` map of the row list. -/
theorem rowsToString_eq (rows : List Row) :
    rowsToString rows =
      ((rows.map (fun r : Row => r.chars)).map (fun l => l ++ ['\n'])).flatten := by
  unfold rowsToString
  rw [List.map_map]
  rfl

/-- Appending one row at the end of the buffer appends its `chars`. -/
theorem editorInsertRow_chars_append (st : EState) (s : List Char) :
    (editorInsertRow st st.rows.length s).rows.map (fun r : Row => r.chars) =
      st.rows.map (fun r : Row => r.chars) ++ [s] := by
  unfold editorInsertRow
  rw [if_neg (by omega)]
  have h1 : ∀ j : Nat,
      (((editorUpdateRowAt st.syntaxOn
        ((st.rows.insertIdx st.rows.length (freshRow s)).length - 1)
        (st.rows.insertIdx st.rows.length (freshRow s))
        st.rows.length)[j]?).map (fun r : Row => r.chars)) =
      (((st.rows.insertIdx st.rows.length (freshRow s))[j]?).map
        (fun r : Row => r.chars)) := by
    intro j
    exact editorUpdateRowAt_chars _ _ _ _ j
  have h2 := map_chars_eq_of_getElem _ _ h1
  show _ = _
  rw [h2, List.insertIdx_length_self, List.map_append]
  rfl

/-- Folding the `editorOpen` per-line inserts appends all stripped
lines. -/
theorem foldl_insert_chars (lines : List (List Char)) : ∀ st : EState,
    ((lines.foldl (fun s line => editorInsertRow s s.rows.length (stripCRLF line)) st).rows).map
        (fun r : Row => r.chars) =
      st.rows.map (fun r : Row => r.chars) ++ lines.map stripCRLF := by
  induction lines with
  | nil => intro st; simp
  | cons l ls ih =>
    intro st
    rw [List.foldl_cons, ih, editorInsertRow_chars_append]
    simp

/-- The `chars` map of the buffer after `editorOpen`. -/
theorem editorOpen_chars (st : EState) (syn : Bool) (content : List Char) :
    (editorOpen st syn content).rows.map (fun r : Row => r.chars) =
      st.rows.map (fun r : Row => r.chars) ++ (getLines content).map stripCRLF := by
  unfold editorOpen
  exact foldl_insert_chars (getLines content) { st with syntaxOn := syn }

/-- C6: opening any file content made of LF-terminated lines with no CR
bytes and immediately serialising the buffer the way `editorSave` does
(`editorRowsToString`) reproduces the original bytes exactly. -/
theorem C6_open_save_roundtrip (sr sc : Nat) (syn : Bool) (content : List Char)
    (hcr : '\r' ∉ content) (hnl : content = [] ∨ content.getLast? = some '\n') :
    rowsToString (editorOpen (initState sr sc) syn content).rows = content := by
  rw [rowsToString_eq, editorOpen_chars]
  show ((((initState sr sc).rows.map fun r : Row => r.chars) ++
    (getLines content).map stripCRLF).map (fun l => l ++ ['\n'])).flatten = content
  have hinit : (initState sr sc).rows.map (fun r : Row => r.chars) = [] := rfl
  rw [hinit, List.nil_append]
  have h1 : (((getLines content).map stripCRLF).map (fun l => l ++ ['\n'])).flatten
      = serializeLines (getLines content) := by
    unfold serializeLines
    rw [List.map_map]
    rfl
  rw [h1]
  exact getLinesGo_serialize content.length content (Nat.le_refl _) hcr hnl

/-- C6, witness: the round trip at the spec's own scenario file
`"hello\nworld\n"`. -/
theorem C6_open_save_roundtrip_witness :
    '\r' ∉ ("hello\nworld\n".toList) ∧
      rowsToString (editorOpen (initState 24 80) false ("hello\nworld\n".toList)).rows =
        "hello\nworld\n".toList :=
  ⟨by decide, C6_open_save_roundtrip 24 80 false _ (by decide) (Or.inr (by decide))⟩

/-! ### Claim C5: render/highlight length parity -/

/-- One row's parity invariant: one highlight entry per render byte
(`len(hl) == len(render)`, i.e. the `hl` array has `rsize` entries). -/
def rowParity (r : Row) : Prop := r.hl.length = r.render.length

/-- Parity of every row of the buffer. -/
def parityAll (rows : List Row) : Prop := ∀ r ∈ rows, rowParity r

/-- Index-based reformulation of `parityAll`. -/
theorem parityAll_iff (rows : List Row) :
    parityAll rows ↔ ∀ (j : Nat) (r : Row), rows[j]? = some r → rowParity r := by
  constructor
  · intro h j r hr
    exact h r (List.getElem?_mem hr)
  · intro h r hr
    rcases List.getElem?_of_mem hr with ⟨n, hn⟩
    exact h n r hn

/-- Overwriting one row with a parity-respecting row preserves the
index-based parity at every index. -/
theorem parity_set (rows : List Row) (i : Nat) (r' : Row) (hr' : rowParity r')
    (j : Nat) (hj : ∀ q : Row, rows[j]? = some q → rowParity q) :
    ∀ q : Row, (rows.set i r')[j]? = some q → rowParity q := by
  intro q hq
  rcases Or.symm (List.mem_or_eq_of_mem_set (List.getElem?_mem hq)) with h | h
  · rw [h]; exact hr'
  · by_cases hij : i = j
    · subst hij
      rw [List.getElem?_set_self'] at hq
      rcases h0 : rows[i]? with _ | r0
      · rw [h0] at hq; exact Option.noConfusion hq
      · rw [h0] at hq
        have hq' : some r' = some q := hq
        rw [← Option.some.inj hq']
        exact hr'
    · rw [List.getElem?_set_ne hij] at hq
      exact hj q hq

/-- The propagation loop establishes parity at every row it touches and
preserves it elsewhere. -/
theorem updateSyntaxGo_parity (syn : Bool) (nb : Nat) :
    ∀ (fuel : Nat) (rows : List Row) (i j : Nat),
      (j ≠ i → ∀ q : Row, rows[j]? = some q → rowParity q) →
      ∀ q : Row, (updateSyntaxGo syn nb fuel rows i)[j]? = some q → rowParity q := by
  have key : ∀ (rows : List Row) (i : Nat) (r' : Row), rowParity r' → ∀ j : Nat,
      (j ≠ i → ∀ q : Row, rows[j]? = some q → rowParity q) →
      ∀ q : Row, (rows.set i r')[j]? = some q → rowParity q := by
    intro rows i r' hr' j hj q hq
    by_cases hij : i = j
    · subst hij
      rw [List.getElem?_set_self'] at hq
      rcases h0 : rows[i]? with _ | r0
      · rw [h0] at hq; exact Option.noConfusion hq
      · rw [h0] at hq
        have hq' : some r' = some q := hq
        rw [← Option.some.inj hq']
        exact hr'
    · rw [List.getElem?_set_ne hij] at hq
      exact hj (fun he => hij he.symm) q hq
  intro fuel
  induction fuel with
  | zero =>
    intro rows i j hj q hq
    unfold updateSyntaxGo at hq
    split at hq
    · rename_i hr
      by_cases hij : j = i
      · subst hij; rw [hr] at hq; exact Option.noConfusion hq
      · exact hj hij q hq
    · rename_i r hr
      split_ifs at hq with hsyn hch
      · refine key rows i _ ?_ j hj q hq
        unfold rowParity; simp [scannedRow, scanRow_length]
      · refine key rows i _ ?_ j hj q hq
        unfold rowParity; simp [scannedRow, scanRow_length]
      · refine key rows i _ ?_ j hj q hq
        unfold rowParity; simp
  | succ f ih =>
    intro rows i j hj q hq
    unfold updateSyntaxGo at hq
    split at hq
    · rename_i hr
      by_cases hij : j = i
      · subst hij; rw [hr] at hq; exact Option.noConfusion hq
      · exact hj hij q hq
    · rename_i r hr
      split_ifs at hq with hsyn hch
      · refine ih _ (i + 1) j ?_ q hq
        intro _
        refine key rows i _ ?_ j hj
        unfold rowParity; simp [scannedRow, scanRow_length]
      · refine key rows i _ ?_ j hj q hq
        unfold rowParity; simp [scannedRow, scanRow_length]
      · refine key rows i _ ?_ j hj q hq
        unfold rowParity; simp

/-- After `editorUpdateRow` on any row of a parity-respecting buffer,
parity holds again for every row. -/
theorem editorUpdateRowAt_parity (syn : Bool) (nb : Nat) (rows : List Row) (i : Nat)
    (h : parityAll rows) : parityAll (editorUpdateRowAt syn nb rows i) := by
  unfold editorUpdateRowAt updateSyntaxAt
  rcases hr : rows[i]? with _ | r
  · exact h
  · rw [parityAll_iff]
    intro j
    apply updateSyntaxGo_parity
    intro hji q hq
    rw [List.getElem?_set_ne (fun he => hji he.symm)] at hq
    exact (parityAll_iff rows).mp h j q hq

/-- Inserting a fresh (empty render/hl) row preserves parity. -/
theorem parity_insertIdx (rows : List Row) (k : Nat) (s : List Char) (h : parityAll rows) :
    parityAll (rows.insertIdx k { chars := s, render := [], hl := [], hl_open_comment := false }) := by
  intro r hr
  by_cases hk : k ≤ rows.length
  · rcases (List.mem_insertIdx hk).mp hr with h1 | h1
    · rw [h1]; rfl
    · exact h r h1
  · rw [List.insertIdx_of_length_lt _ _ _ (by omega)] at hr
    exact h r hr

/-- C5: every public mutation of the row store preserves the invariant
`len(render) == len(hl)` for every row: row insertion
(`editorInsertRow`), row deletion (`editorDelRow`), character edits
(`editorRowInsertChar`, `editorRowAppendString`, `editorRowDelChar`,
`editorInsertChar`), newline split/merge (`editorInsertNewline`,
`editorDelChar`) and file open (`editorOpen`). -/
theorem C5_render_hl_parity (st : EState) (h : parityAll st.rows) :
    (∀ (a : Nat) (s : List Char), parityAll (editorInsertRow st a s).rows) ∧
    (∀ a : Nat, parityAll (editorDelRow st a).rows) ∧
    (∀ (i a : Nat) (c : Char), parityAll (editorRowInsertChar st i a c).rows) ∧
    (∀ (i : Nat) (s : List Char), parityAll (editorRowAppendString st i s).rows) ∧
    (∀ (i a : Nat), parityAll (editorRowDelChar st i a).rows) ∧
    (∀ c : Char, parityAll (editorInsertChar st c).rows) ∧
    parityAll (editorInsertNewline st).rows ∧
    parityAll (editorDelChar st).rows ∧
    (∀ (syn : Bool) (content : List Char), parityAll (editorOpen st syn content).rows) := by
  have hins : ∀ (st' : EState), parityAll st'.rows →
      ∀ (a : Nat) (s : List Char), parityAll (editorInsertRow st' a s).rows := by
    intro st' h' a s
    unfold editorInsertRow
    split_ifs with hg
    · exact h'
    · exact editorUpdateRowAt_parity _ _ _ _ (parity_insertIdx st'.rows a s h')
  have hdel : ∀ (st' : EState), parityAll st'.rows →
      ∀ a : Nat, parityAll (editorDelRow st' a).rows := by
    intro st' h' a
    unfold editorDelRow
    split_ifs with hg
    · exact h'
    · exact fun r hr => h' r (List.mem_of_mem_eraseIdx hr)
  have hsetchars : ∀ (st' : EState), parityAll st'.rows → ∀ (i : Nat) (r : Row)
      (cs : List Char), st'.rows[i]? = some r →
      parityAll (st'.rows.set i { r with chars := cs }) := by
    intro st' h' i r cs hr
    rw [parityAll_iff]
    intro j
    apply parity_set
    · exact (parityAll_iff st'.rows).mp h' i r hr
    · intro q hq
      exact (parityAll_iff st'.rows).mp h' j q hq
  have hric : ∀ (st' : EState), parityAll st'.rows →
      ∀ (i a : Nat) (c : Char), parityAll (editorRowInsertChar st' i a c).rows := by
    intro st' h' i a c
    unfold editorRowInsertChar
    split
    · exact h'
    · rename_i r hr
      exact editorUpdateRowAt_parity _ _ _ _ (hsetchars st' h' i r _ hr)
  have hras : ∀ (st' : EState), parityAll st'.rows →
      ∀ (i : Nat) (s : List Char), parityAll (editorRowAppendString st' i s).rows := by
    intro st' h' i s
    unfold editorRowAppendString
    split
    · exact h'
    · rename_i r hr
      exact editorUpdateRowAt_parity _ _ _ _ (hsetchars st' h' i r _ hr)
  have hrdc : ∀ (st' : EState), parityAll st'.rows →
      ∀ (i a : Nat), parityAll (editorRowDelChar st' i a).rows := by
    intro st' h' i a
    unfold editorRowDelChar
    split
    · exact h'
    · rename_i r hr
      split_ifs with hg
      · exact h'
      · exact editorUpdateRowAt_parity _ _ _ _ (hsetchars st' h' i r _ hr)
  have hic : ∀ (st' : EState), parityAll st'.rows →
      ∀ c : Char, parityAll (editorInsertChar st' c).rows := by
    intro st' h' c
    unfold editorInsertChar
    split_ifs with hg
    · exact hric _ (hins st' h' _ _) _ _ c
    · exact hric _ h' _ _ c
  have hinl : ∀ (st' : EState), parityAll st'.rows →
      parityAll (editorInsertNewline st').rows := by
    intro st' h'
    unfold editorInsertNewline
    split_ifs with hg
    · exact hins st' h' _ _
    · unfold splitRowStep
      split
      · exact h'
      · rename_i r hr
        unfold truncateRowStep
        split
        · exact hins st' h' _ _
        · rename_i r' hr'
          exact editorUpdateRowAt_parity _ _ _ _
            (hsetchars (editorInsertRow st' (st'.cy + 1) (r.chars.drop st'.cx))
              (hins st' h' _ _) st'.cy r' _ hr')
  have hdc : ∀ (st' : EState), parityAll st'.rows →
      parityAll (editorDelChar st').rows := by
    intro st' h'
    unfold editorDelChar
    split_ifs with hg1 hg2 hg3
    · exact h'
    · exact h'
    · exact hrdc st' h' _ _
    · exact hdel _ (hras st' h' _ _) _
  have hopen : ∀ (st' : EState), parityAll st'.rows →
      ∀ (syn : Bool) (content : List Char), parityAll (editorOpen st' syn content).rows := by
    intro st' h' syn content
    unfold editorOpen
    have : ∀ (lines : List (List Char)) (s0 : EState), parityAll s0.rows →
        parityAll ((lines.foldl
          (fun s line => editorInsertRow s s.rows.length (stripCRLF line)) s0).rows) := by
      intro lines
      induction lines with
      | nil => intro s0 h0; exact h0
      | cons l ls ih =>
        intro s0 h0
        exact ih _ (hins s0 h0 _ _)
    exact this (getLines content) { st' with syntaxOn := syn } h'
  exact ⟨hins st h, hdel st h, hric st h, hras st h, hrdc st h, hic st h, hinl st h,
    hdc st h, hopen st h⟩

/-- C5, witness: the parity theorem applied at the freshly initialised
(empty) editor. -/
theorem C5_render_hl_parity_witness :
    parityAll (initState 24 80).rows ∧
      parityAll (editorInsertChar (initState 24 80) 'x').rows :=
  ⟨fun r hr => absurd hr (by simp [initState]),
    (C5_render_hl_parity (initState 24 80)
      (fun r hr => absurd hr (by simp [initState]))).2.2.2.2.2.1 'x'⟩

/-! ### Claim C2: comment-state propagation -/

/-- Freshly opened two-row buffer whose first row closes and then
reopens quoting and comment markers: the raw file bytes are a double
quote, star, slash, double quote, space, slash, star, newline, then the
single letter x and a final newline, opened with highlighting on. -/
def c2state0 : EState := editorOpen (initState 20 80) true ("\"*/\" /*\nx\n".toList)

/-- The same buffer after one Arrow-Right keystroke (cursor to cx = 1). -/
def c2state1 : EState := (procKey c2state0 Key.arrowRight noScript true).1

/-- The same buffer after Enter splits row 0 at cx = 1. -/
def c2state2 : EState := (procKey c2state1 enterKey noScript true).1

/-- C2 fails on the code: the propagation invariant (checked by
`hlConsistentB`) holds after `editorOpen` but is broken by a single
Enter keypress.  After the split, the untouched row 2 (the row with the
single character x) keeps a stale `MLCOMMENT` highlight and a stale
`hl_open_comment = true`, even though its predecessor row ends with
`hl_open_comment = false` and a rescan of row 2 under that incoming
state yields plain `NORMAL` highlighting.  The cause in
`editorInsertRow` / `editorInsertNewline` (src/kilo.c) is that the
inserted row's `hl_open_comment` is zeroed before `editorUpdateSyntax`
runs, so the changed-state comparison sees no change and the update is
never propagated to the rows below the split. -/
theorem C2_propagation_broken_by_split :
    hlConsistentB c2state0.rows = true ∧
      hlConsistentB c2state2.rows = false ∧
      (rowAt c2state2.rows 2).chars = ['x'] ∧
      (rowAt c2state2.rows 2).hl = [Hl.mlcomment] ∧
      (rowAt c2state2.rows 2).hl_open_comment = true ∧
      (rowAt c2state2.rows 1).hl_open_comment = false ∧
      (scanRow (rowAt c2state2.rows 2).render false).1 = [Hl.normal] := by
  decide

/-! ### Claim C7: incremental-search visit order -/

/-- Whether row `j`'s render contains the query as a substring (the
`strstr(row->render, query)` test of the search loop). -/
def matchesQ (rows : List Row) (q : List Char) (j : Nat) : Bool :=
  (strstrIdx (rowAt rows j).render q).isSome

/-- The wrap-around step of the search loop: `if (current == -1) current
= E.numrows - 1; else if (current == E.numrows) current = 0;`. -/
def wrapIdx (n : Nat) (cur1 : Int) : Int :=
  if cur1 = -1 then (n : Int) - 1 else if cur1 = (n : Int) then 0 else cur1

/-- The row indices the search loop probes, in order: `fuel` steps of
`current += direction` with wrap-around, starting from `cur`. -/
def probes (n : Nat) (d : Int) : Nat → Int → List Nat
  | 0, _ => []
  | fuel + 1, cur => (wrapIdx n (cur + d)).toNat :: probes n d fuel (wrapIdx n (cur + d))

/-- The cursor position of the search loop after `fuel` steps. -/
def endCur (n : Nat) (d : Int) : Nat → Int → Int
  | 0, cur => cur
  | fuel + 1, cur => endCur n d fuel (wrapIdx n (cur + d))

/-- Candidate order of a forward (DOWN/RIGHT) search from last match
`m`: the rows after `m` in increasing order, then — wrapping once past
the last row — the rows from `0` up to `m`. -/
def candDown (n : Nat) (m : Int) : List Nat :=
  if m = -1 then List.range n
  else List.range' (m.toNat + 1) (n - 1 - m.toNat) ++ List.range (m.toNat + 1)

/-- Candidate order of a backward (UP/LEFT) search from last match `m`:
the rows before `m` in decreasing order, then — wrapping once past row
0 — the rows from `n-1` down to `m`. -/
def candUp (n m : Nat) : List Nat :=
  (List.range m).reverse ++ (List.range' m (n - m)).reverse

/-- What one find-callback invocation does to the match position: if the
candidate search yields `some j` the callback records `last_match = j`
and moves the cursor to row `j`; on `none` both are left unchanged. -/
def visits (st st' : EState) : Option Nat → Prop
  | some j => st'.lastMatch = (j : Int) ∧ st'.cy = j
  | none => st'.lastMatch = st.lastMatch ∧ st'.cy = st.cy

/-- The search loop returns the first probed row whose render contains
the query. -/
theorem findLoopGo_eq_find (rows : List Row) (q : List Char) (d : Int) :
    ∀ (fuel : Nat) (cur : Int),
      findLoopGo rows q d fuel cur =
        List.find? (fun j => matchesQ rows q j) (probes rows.length d fuel cur) := by
  intro fuel
  induction fuel with
  | zero => intro cur; rfl
  | succ f ih =>
    intro cur
    have hstep : findLoopGo rows q d (f + 1) cur =
        (if matchesQ rows q (wrapIdx rows.length (cur + d)).toNat then
          some (wrapIdx rows.length (cur + d)).toNat
        else findLoopGo rows q d f (wrapIdx rows.length (cur + d))) := rfl
    have hprobe : probes rows.length d (f + 1) cur =
        (wrapIdx rows.length (cur + d)).toNat ::
          probes rows.length d f (wrapIdx rows.length (cur + d)) := rfl
    rw [hstep, hprobe]
    by_cases hp : matchesQ rows q (wrapIdx rows.length (cur + d)).toNat = true
    · rw [if_pos hp, List.find?_cons_of_pos _ hp]
    · rw [if_neg hp, List.find?_cons_of_neg _ hp, ih]

/-- A forward step below the top row does not wrap. -/
theorem wrapIdx_down (n c : Nat) (h : c + 1 < n) :
    wrapIdx n ((c : Int) + 1) = ((c + 1 : Nat) : Int) := by
  unfold wrapIdx
  rw [if_neg (by omega), if_neg (by omega)]
  omega

/-- A backward step above row 0 does not wrap. -/
theorem wrapIdx_up (n c : Nat) (h0 : 1 ≤ c) (h : c < n) :
    wrapIdx n ((c : Int) + (-1)) = ((c - 1 : Nat) : Int) := by
  unfold wrapIdx
  rw [if_neg (by omega), if_neg (by omega)]
  omega

/-- Forward probes that stay below the top row enumerate the next `fuel`
row indices in increasing order. -/
theorem probes_nowrap_down (n : Nat) : ∀ (fuel c : Nat), c + fuel < n →
    probes n 1 fuel (c : Int) = List.range' (c + 1) fuel := by
  intro fuel
  induction fuel with
  | zero => intro c _; rfl
  | succ f ih =>
    intro c h
    have hstep : probes n 1 (f + 1) (c : Int) =
        (wrapIdx n ((c : Int) + 1)).toNat :: probes n 1 f (wrapIdx n ((c : Int) + 1)) := rfl
    rw [hstep, wrapIdx_down n c (by omega)]
    have ht : ((c + 1 : Nat) : Int).toNat = c + 1 := rfl
    rw [ht, ih (c + 1) (by omega)]
    rfl

/-- Backward probes that stay above row 0 enumerate the previous `fuel`
row indices in decreasing order. -/
theorem probes_nowrap_up (n : Nat) : ∀ (fuel c : Nat), fuel ≤ c → c < n →
    probes n (-1) fuel (c : Int) = (List.range' (c - fuel) fuel).reverse := by
  intro fuel
  induction fuel with
  | zero => intro c _ _; rfl
  | succ f ih =>
    intro c h hc
    have hstep : probes n (-1) (f + 1) (c : Int) =
        (wrapIdx n ((c : Int) + (-1))).toNat ::
          probes n (-1) f (wrapIdx n ((c : Int) + (-1))) := rfl
    rw [hstep, wrapIdx_up n c (by omega) hc]
    have ht : ((c - 1 : Nat) : Int).toNat = c - 1 := rfl
    rw [ht, ih (c - 1) (by omega) (by omega)]
    have hhead : c - (f + 1) + 1 * f = c - 1 := by omega
    have harg : c - (f + 1) = c - 1 - f := by omega
    rw [List.range'_concat, List.reverse_append, List.reverse_singleton,
      List.singleton_append, hhead, harg]

/-- Splitting the probe sequence at an intermediate step. -/
theorem probes_append (n : Nat) (d : Int) : ∀ (a b : Nat) (cur : Int),
    probes n d (a + b) cur = probes n d a cur ++ probes n d b (endCur n d a cur) := by
  intro a
  induction a with
  | zero => intro b cur; rw [Nat.zero_add]; rfl
  | succ f ih =>
    intro b cur
    have h1 : f + 1 + b = (f + b) + 1 := by omega
    rw [h1]
    have hstep : probes n d ((f + b) + 1) cur =
        (wrapIdx n (cur + d)).toNat :: probes n d (f + b) (wrapIdx n (cur + d)) := rfl
    rw [hstep, ih]
    rfl

/-- Where the cursor lands after forward steps that do not wrap. -/
theorem endCur_down (n : Nat) : ∀ (fuel c : Nat), c + fuel < n →
    endCur n 1 fuel (c : Int) = ((c + fuel : Nat) : Int) := by
  intro fuel
  induction fuel with
  | zero => intro c _; show (c : Int) = _; omega
  | succ f ih =>
    intro c h
    show endCur n 1 f (wrapIdx n ((c : Int) + 1)) = _
    rw [wrapIdx_down n c (by omega), ih (c + 1) (by omega)]
    omega

/-- Where the cursor lands after backward steps that do not wrap. -/
theorem endCur_up (n : Nat) : ∀ (fuel c : Nat), fuel ≤ c → c < n →
    endCur n (-1) fuel (c : Int) = ((c - fuel : Nat) : Int) := by
  intro fuel
  induction fuel with
  | zero => intro c _ _; show (c : Int) = _; omega
  | succ f ih =>
    intro c h hc
    show endCur n (-1) f (wrapIdx n ((c : Int) + (-1))) = _
    rw [wrapIdx_up n c (by omega) hc, ih (c - 1) (by omega) (by omega)]
    omega

/-- A full-budget forward probe sequence is exactly the increasing
wrapped candidate list. -/
theorem probes_down_eq_candDown (n : Nat) (m : Int)
    (hm : m = -1 ∨ (0 ≤ m ∧ m < (n : Int))) :
    probes n 1 n m = candDown n m := by
  rcases hm with hm | ⟨hm0, hmn⟩
  · subst hm
    unfold candDown
    rw [if_pos rfl]
    cases n with
    | zero => rfl
    | succ k =>
      have hstep : probes (k + 1) 1 (k + 1) (-1 : Int) =
          (wrapIdx (k + 1) (-1 + 1)).toNat ::
            probes (k + 1) 1 k (wrapIdx (k + 1) (-1 + 1)) := rfl
      have hw : wrapIdx (k + 1) (-1 + 1) = ((0 : Nat) : Int) := by
        unfold wrapIdx
        rw [if_neg (by omega), if_neg (by omega)]
        omega
      rw [hstep, hw, probes_nowrap_down (k + 1) k 0 (by omega)]
      show (0 : Nat) :: List.range' (0 + 1) k = List.range (k + 1)
      rw [List.range_eq_range']
      rfl
  · obtain ⟨mm, rfl⟩ : ∃ mm : Nat, m = (mm : Int) := ⟨m.toNat, by omega⟩
    have hmn' : mm < n := by omega
    unfold candDown
    rw [if_neg (by omega)]
    have htn : ((mm : Int)).toNat = mm := rfl
    rw [htn]
    have hsplit : probes n 1 n (mm : Int) = probes n 1 ((n - 1 - mm) + (mm + 1)) (mm : Int) := by
      have : n = (n - 1 - mm) + (mm + 1) := by omega
      rw [← this]
    rw [hsplit, probes_append, probes_nowrap_down n (n - 1 - mm) mm (by omega),
      endCur_down n (n - 1 - mm) mm (by omega)]
    have harg : mm + (n - 1 - mm) = n - 1 := by omega
    rw [harg]
    have hw : wrapIdx n (((n - 1 : Nat) : Int) + 1) = ((0 : Nat) : Int) := by
      unfold wrapIdx
      rw [if_neg (by omega), if_pos (by omega)]
      rfl
    have hstep : probes n 1 (mm + 1) ((n - 1 : Nat) : Int) =
        (wrapIdx n (((n - 1 : Nat) : Int) + 1)).toNat ::
          probes n 1 mm (wrapIdx n (((n - 1 : Nat) : Int) + 1)) := rfl
    rw [hstep, hw, probes_nowrap_down n mm 0 (by omega)]
    have hrng : (((0 : Nat) : Int)).toNat :: List.range' (0 + 1) mm = List.range (mm + 1) := by
      rw [List.range_eq_range']
      rfl
    rw [hrng]

/-- A full-budget backward probe sequence is exactly the decreasing
wrapped candidate list. -/
theorem probes_up_eq_candUp (n mm : Nat) (hmn : mm < n) :
    probes n (-1) n (mm : Int) = candUp n mm := by
  unfold candUp
  have hsplit : probes n (-1) n (mm : Int) =
      probes n (-1) (mm + ((n - 1 - mm) + 1)) (mm : Int) := by
    have : n = mm + ((n - 1 - mm) + 1) := by omega
    rw [← this]
  rw [hsplit, probes_append, probes_nowrap_up n mm mm (by omega) hmn,
    endCur_up n mm mm (by omega) hmn]
  have h0 : mm - mm = 0 := by omega
  rw [h0, ← List.range_eq_range']
  have hw : wrapIdx n (((0 : Nat) : Int) + (-1)) = ((n : Int) - 1) := by
    unfold wrapIdx
    rw [if_pos (by omega)]
  have hstep : probes n (-1) ((n - 1 - mm) + 1) ((0 : Nat) : Int) =
      (wrapIdx n (((0 : Nat) : Int) + (-1))).toNat ::
        probes n (-1) (n - 1 - mm) (wrapIdx n (((0 : Nat) : Int) + (-1))) := rfl
  rw [hstep, hw]
  have ht : ((n : Int) - 1).toNat = n - 1 := by omega
  have hc : ((n : Int) - 1) = ((n - 1 : Nat) : Int) := by omega
  rw [ht, hc, probes_nowrap_up n (n - 1 - mm) (n - 1) (by omega) (by omega)]
  have harg : n - 1 - (n - 1 - mm) = mm := by omega
  rw [harg]
  have hsfx : (List.range' mm (n - mm)).reverse =
      (n - 1) :: (List.range' mm (n - 1 - mm)).reverse := by
    have hnm : n - mm = (n - 1 - mm) + 1 := by omega
    rw [hnm, List.range'_concat, List.reverse_append, List.reverse_singleton,
      List.singleton_append]
    have : mm + 1 * (n - 1 - mm) = n - 1 := by omega
    rw [this]
  rw [hsfx]

/-- The forward search loop finds the first match in the increasing
wrapped candidate order. -/
theorem findLoop_down (rows : List Row) (q : List Char) (m : Int)
    (hm : m = -1 ∨ (0 ≤ m ∧ m < (rows.length : Int))) :
    findLoop rows q m 1 =
      List.find? (fun j => matchesQ rows q j) (candDown rows.length m) := by
  unfold findLoop
  rw [findLoopGo_eq_find, probes_down_eq_candDown rows.length m hm]

/-- The backward search loop finds the first match in the decreasing
wrapped candidate order. -/
theorem findLoop_up (rows : List Row) (q : List Char) (mm : Nat)
    (hmn : mm < rows.length) :
    findLoop rows q (mm : Int) (-1) =
      List.find? (fun j => matchesQ rows q j) (candUp rows.length mm) := by
  unfold findLoop
  rw [findLoopGo_eq_find, probes_up_eq_candUp rows.length mm hmn]

/-- With no saved highlight pending, the restore step is a no-op. -/
theorem fcRestore_none (st : EState) (h : st.savedHl = none) : fcRestore st = st := by
  unfold fcRestore
  rw [h]

/-- Forcing the direction on a state already searching forward changes
nothing. -/
theorem fcForce_dir1 (st : EState) :
    fcForce { st with direction := 1 } = { st with direction := 1 } := by
  unfold fcForce
  split_ifs <;> rfl

/-- A find-callback invocation with DOWN or RIGHT is a forward search. -/
theorem findCallbackStep_down (st : EState) (junk : Nat → Hl) (q : List Char)
    (hs : st.savedHl = none) (k : Key) (hk : k = Key.arrowDown ∨ k = Key.arrowRight) :
    findCallbackStep st junk q k = fcSearch { st with direction := 1 } junk q := by
  rcases hk with rfl | rfl
  all_goals
    unfold findCallbackStep
    rw [if_neg (by decide), fcRestore_none st hs]
    unfold fcSetDir
    rw [if_pos (by decide)]
    rw [fcForce_dir1]

/-- A find-callback invocation with UP or LEFT after a hit is a backward
search. -/
theorem findCallbackStep_up (st : EState) (junk : Nat → Hl) (q : List Char)
    (hs : st.savedHl = none) (hlm : st.lastMatch ≠ -1) (k : Key)
    (hk : k = Key.arrowUp ∨ k = Key.arrowLeft) :
    findCallbackStep st junk q k = fcSearch { st with direction := -1 } junk q := by
  rcases hk with rfl | rfl
  all_goals
    unfold findCallbackStep
    rw [if_neg (by decide), fcRestore_none st hs]
    unfold fcSetDir
    rw [if_neg (by decide), if_pos (by decide)]
    unfold fcForce
    split_ifs with h2
    · exact absurd h2 hlm
    · rfl

/-- A find-callback invocation with UP or LEFT before any hit is forced
forward (`if (last_match == -1) direction = 1;`). -/
theorem findCallbackStep_up_reset (st : EState) (junk : Nat → Hl) (q : List Char)
    (hs : st.savedHl = none) (hlm : st.lastMatch = -1) (k : Key)
    (hk : k = Key.arrowUp ∨ k = Key.arrowLeft) :
    findCallbackStep st junk q k = fcSearch { st with direction := 1 } junk q := by
  rcases hk with rfl | rfl
  all_goals
    unfold findCallbackStep
    rw [if_neg (by decide), fcRestore_none st hs]
    unfold fcSetDir
    rw [if_neg (by decide), if_pos (by decide)]
    unfold fcForce
    split_ifs with h2
    · rfl
    · exact absurd hlm h2

/-- What the search-and-paint step does to the match position, given a
characterisation of the loop result as a first match in a candidate
list. -/
theorem fcSearch_visits (st : EState) (junk : Nat → Hl) (q : List Char) (d : Int)
    (cand : List Nat)
    (hchar : findLoop st.rows q st.lastMatch d =
      List.find? (fun j => matchesQ st.rows q j) cand) :
    visits st (fcSearch { st with direction := d } junk q)
      (List.find? (fun j => matchesQ st.rows q j) cand) := by
  rcases hres : List.find? (fun j => matchesQ st.rows q j) cand with _ | j
  · have h2 : findLoop { st with direction := d }.rows q
        { st with direction := d }.lastMatch { st with direction := d }.direction = none := by
      show findLoop st.rows q st.lastMatch d = none
      rw [hchar, hres]
    unfold fcSearch
    rw [h2]
    exact ⟨rfl, rfl⟩
  · have h2 : findLoop { st with direction := d }.rows q
        { st with direction := d }.lastMatch { st with direction := d }.direction = some j := by
      show findLoop st.rows q st.lastMatch d = some j
      rw [hchar, hres]
    unfold fcSearch
    rw [h2]
    exact ⟨rfl, rfl⟩

/-- C7: with the static search state within its invariant and no pending
highlight restore, one find-callback invocation with DOWN or RIGHT
visits the first row whose render contains the query in the increasing
row order wrapping once past the last row (`candDown`); with UP or LEFT
after a previous hit it visits the first match in the decreasing order
with the symmetric wrap (`candUp`); with UP or LEFT before any hit the
direction is forced forward and the rows are probed in plain increasing
order.  In each case `last_match` and the cursor row move to the visited
row, or stay put when no row matches. -/
theorem C7_search_order (st : EState) (junk : Nat → Hl) (q : List Char)
    (hs : st.savedHl = none) :
    (∀ k, (k = Key.arrowDown ∨ k = Key.arrowRight) →
      (st.lastMatch = -1 ∨ (0 ≤ st.lastMatch ∧ st.lastMatch < (st.rows.length : Int))) →
      visits st (findCallbackStep st junk q k)
        (List.find? (fun j => matchesQ st.rows q j) (candDown st.rows.length st.lastMatch))) ∧
    (∀ k, (k = Key.arrowUp ∨ k = Key.arrowLeft) →
      (0 ≤ st.lastMatch ∧ st.lastMatch < (st.rows.length : Int)) →
      visits st (findCallbackStep st junk q k)
        (List.find? (fun j => matchesQ st.rows q j)
          (candUp st.rows.length st.lastMatch.toNat))) ∧
    (∀ k, (k = Key.arrowUp ∨ k = Key.arrowLeft) → st.lastMatch = -1 →
      visits st (findCallbackStep st junk q k)
        (List.find? (fun j => matchesQ st.rows q j) (List.range st.rows.length))) := by
  refine ⟨?_, ?_, ?_⟩
  · intro k hk hm
    rw [findCallbackStep_down st junk q hs k hk]
    exact fcSearch_visits st junk q 1 _ (findLoop_down st.rows q st.lastMatch hm)
  · intro k hk hm
    rw [findCallbackStep_up st junk q hs (by omega) k hk]
    have h1 := findLoop_up st.rows q st.lastMatch.toNat (by omega)
    rw [show ((st.lastMatch.toNat : Nat) : Int) = st.lastMatch from by omega] at h1
    exact fcSearch_visits st junk q (-1) _ h1
  · intro k hk hm
    rw [findCallbackStep_up_reset st junk q hs hm k hk]
    have hcd : candDown st.rows.length st.lastMatch = List.range st.rows.length := by
      unfold candDown
      rw [if_pos hm]
    rw [← hcd]
    exact fcSearch_visits st junk q 1 _ (findLoop_down st.rows q st.lastMatch (Or.inl hm))

/-- A freshly opened four-row buffer with matches on rows 0 and 2. -/
def c7st : EState :=
  editorOpen (initState 10 40) false ("alpha\nbeta\nalpha gamma\ndelta\n".toList)

/-- C7, witness: at the concrete buffer, a first DOWN search visits row
0, the first row containing the query. -/
theorem C7_search_order_witness :
    c7st.savedHl = none ∧
      List.find? (fun j => matchesQ c7st.rows ("alpha".toList) j)
        (candDown c7st.rows.length c7st.lastMatch) = some 0 ∧
      visits c7st (findCallbackStep c7st (fun _ => Hl.normal) ("alpha".toList) Key.arrowDown)
        (List.find? (fun j => matchesQ c7st.rows ("alpha".toList) j)
          (candDown c7st.rows.length c7st.lastMatch)) :=
  ⟨rfl, by decide,
    (C7_search_order c7st (fun _ => Hl.normal) ("alpha".toList) rfl).1 Key.arrowDown
      (Or.inl rfl) (Or.inl rfl)⟩

/-! ### Claim C8: search-cancel restoration -/

/-- The highlight copy the callback saves on a hit
(`saved_hl = malloc(row->rsize); memcpy(saved_hl, row->hl, row->size)`):
only the first `size` entries are initialised from `hl`; the remaining
`rsize - size` bytes are whatever was in the malloc'd memory (`junk`). -/
def savedCopy (r : Row) (junk : Nat → Hl) : List Hl :=
  r.hl.take r.chars.length ++ (List.range (r.render.length - r.chars.length)).map junk

/-- The match painting (`memset(&row->hl[match - row->render], HL_MATCH,
strlen(query))`). -/
def paintRow (r : Row) (q : List Char) : Row :=
  { r with hl := setRange r.hl ((strstrIdx r.render q).getD 0) q.length Hl.matched }

/-- `strstr` finds nothing in an empty haystack when the needle is
nonempty. -/
theorem strstrIdx_nil_hay (q : List Char) (hq : q ≠ []) : strstrIdx [] q = none := by
  cases q with
  | nil => exact absurd rfl hq
  | cons c cs => rfl

/-- With a nonempty query, any row index the search loop returns is in
range (an out-of-range `rowAt` is the empty default row, which cannot
contain the query). -/
theorem findLoopGo_some_lt (rows : List Row) (q : List Char) (d : Int) (hq : q ≠ []) :
    ∀ (fuel : Nat) (cur : Int) (j : Nat),
      findLoopGo rows q d fuel cur = some j → j < rows.length := by
  intro fuel
  induction fuel with
  | zero => intro cur j h; exact Option.noConfusion h
  | succ f ih =>
    intro cur j h
    have hstep : findLoopGo rows q d (f + 1) cur =
        (if matchesQ rows q (wrapIdx rows.length (cur + d)).toNat then
          some (wrapIdx rows.length (cur + d)).toNat
        else findLoopGo rows q d f (wrapIdx rows.length (cur + d))) := rfl
    rw [hstep] at h
    by_cases hp : matchesQ rows q (wrapIdx rows.length (cur + d)).toNat = true
    · rw [if_pos hp] at h
      rw [← Option.some.inj h]
      by_contra hge
      push_neg at hge
      unfold matchesQ rowAt at hp
      rw [List.getD_eq_default _ _ hge] at hp
      have hrd : (default : Row).render = [] := rfl
      rw [hrd, strstrIdx_nil_hay q hq] at hp
      exact Bool.noConfusion hp
    · rw [if_neg hp] at h
      exact ih _ j h

/-- `rowAt` agrees with an in-range indexed read. -/
theorem rowAt_eq (rows : List Row) (i : Nat) (r : Row) (h : rows[i]? = some r) :
    rowAt rows i = r := by
  unfold rowAt
  rw [List.getD_eq_getElem?_getD, h]
  rfl

/-- An in-range indexed read returns `rowAt`. -/
theorem getElem?_rowAt (rows : List Row) (i : Nat) (h : i < rows.length) :
    rows[i]? = some (rowAt rows i) := by
  rcases hx : rows[i]? with _ | r
  · rw [List.getElem?_eq_none_iff] at hx
    omega
  · rw [rowAt_eq rows i r hx]

/-- The direction-setting step never touches the row store. -/
theorem fcSetDir_rows (st : EState) (k : Key) : (fcSetDir st k).rows = st.rows := by
  unfold fcSetDir
  split_ifs <;> rfl

/-- The direction-setting step never touches the saved highlight. -/
theorem fcSetDir_savedHl (st : EState) (k : Key) : (fcSetDir st k).savedHl = st.savedHl := by
  unfold fcSetDir
  split_ifs <;> rfl

/-- The direction-forcing step never touches the row store. -/
theorem fcForce_rows (st : EState) : (fcForce st).rows = st.rows := by
  unfold fcForce
  split_ifs <;> rfl

/-- The direction-forcing step never touches the saved highlight. -/
theorem fcForce_savedHl (st : EState) : (fcForce st).savedHl = st.savedHl := by
  unfold fcForce
  split_ifs <;> rfl

/-- C8 (amended): cancelling with ESC an incremental search that ran one
probe restores `cx`, `cy`, `coloff` and `rowoff` exactly, leaves every
row's `chars` and `render` untouched, and restores every row's `hl` on
the first `size` entries; a row whose render equals its chars byte for
byte (no tabs) gets its whole `hl` back.  The trailing `rsize - size`
entries of a matched row are NOT restored from the original highlight —
they come from the uninitialised tail of the saved copy (see the
counterexample). -/
theorem C8_cancel_restores (st : EState) (q lq : List Char) (k : Key)
    (junk junk2 : Nat → Hl) (hs : st.savedHl = none) (hq : q ≠ [])
    (hk1 : k ≠ enterKey) (hk2 : k ≠ escKey)
    (hpar : ∀ r ∈ st.rows, r.hl.length = r.render.length ∧ r.chars.length ≤ r.render.length) :
    (findSession st ⟨[⟨q, k, junk⟩], lq, junk2, true⟩).cx = st.cx ∧
    (findSession st ⟨[⟨q, k, junk⟩], lq, junk2, true⟩).cy = st.cy ∧
    (findSession st ⟨[⟨q, k, junk⟩], lq, junk2, true⟩).coloff = st.coloff ∧
    (findSession st ⟨[⟨q, k, junk⟩], lq, junk2, true⟩).rowoff = st.rowoff ∧
    ∀ (i : Nat) (r r' : Row), st.rows[i]? = some r →
      (findSession st ⟨[⟨q, k, junk⟩], lq, junk2, true⟩).rows[i]? = some r' →
      r'.chars = r.chars ∧ r'.render = r.render ∧
        r'.hl.take r.chars.length = r.hl.take r.chars.length ∧
        (r.chars.length = r.render.length → r'.hl = r.hl) := by
  have hfin : findSession st ⟨[⟨q, k, junk⟩], lq, junk2, true⟩ =
      { findCallbackStep (findCallbackStep st junk q k) junk2 lq escKey with
        cx := st.cx
        cy := st.cy
        coloff := st.coloff
        rowoff := st.rowoff } := rfl
  rw [hfin]
  refine ⟨rfl, rfl, rfl, rfl, ?_⟩
  intro i r r' hr hr'
  replace hr' : (findCallbackStep (findCallbackStep st junk q k) junk2 lq escKey).rows[i]?
      = some r' := hr'
  have hstep1 : findCallbackStep st junk q k = fcSearch (fcForce (fcSetDir st k)) junk q := by
    unfold findCallbackStep
    rw [if_neg (not_or.mpr ⟨hk1, hk2⟩), fcRestore_none st hs]
  have h1r : (fcForce (fcSetDir st k)).rows = st.rows := by
    rw [fcForce_rows, fcSetDir_rows]
  have h1s : (fcForce (fcSetDir st k)).savedHl = none := by
    rw [fcForce_savedHl, fcSetDir_savedHl, hs]
  have hesc : ∀ s : EState, findCallbackStep s junk2 lq escKey =
      { fcRestore s with lastMatch := -1, direction := 1 } := by
    intro s
    unfold findCallbackStep
    rw [if_pos (Or.inr rfl)]
  rw [hstep1, hesc] at hr'
  replace hr' : (fcRestore (fcSearch (fcForce (fcSetDir st k)) junk q)).rows[i]?
      = some r' := hr'
  rcases hres : findLoop (fcForce (fcSetDir st k)).rows q (fcForce (fcSetDir st k)).lastMatch
      (fcForce (fcSetDir st k)).direction with _ | cur
  · have hS1 : fcSearch (fcForce (fcSetDir st k)) junk q = fcForce (fcSetDir st k) := by
      unfold fcSearch
      rw [hres]
    rw [hS1, fcRestore_none _ h1s, h1r, hr] at hr'
    rw [← Option.some.inj hr']
    exact ⟨rfl, rfl, rfl, fun _ => rfl⟩
  · have hcur : cur < st.rows.length := by
      have hres2 := hres
      rw [h1r] at hres2
      exact findLoopGo_some_lt st.rows q (fcForce (fcSetDir st k)).direction hq
        st.rows.length (fcForce (fcSetDir st k)).lastMatch cur hres2
    have hsave : (fcSearch (fcForce (fcSetDir st k)) junk q).savedHl =
        some (cur, savedCopy (rowAt (fcForce (fcSetDir st k)).rows cur) junk) := by
      unfold fcSearch
      rw [hres]
      rfl
    have hrows1 : (fcSearch (fcForce (fcSetDir st k)) junk q).rows =
        (fcForce (fcSetDir st k)).rows.set cur
          (paintRow (rowAt (fcForce (fcSetDir st k)).rows cur) q) := by
      unfold fcSearch
      rw [hres]
      rfl
    have hrest : (fcRestore (fcSearch (fcForce (fcSetDir st k)) junk q)).rows =
        restoreHlAt (fcSearch (fcForce (fcSetDir st k)) junk q).rows cur
          (savedCopy (rowAt (fcForce (fcSetDir st k)).rows cur) junk) := by
      unfold fcRestore
      rw [hsave]
    rw [hrest, hrows1, h1r] at hr'
    have hset : (st.rows.set cur (paintRow (rowAt st.rows cur) q))[cur]? =
        some (paintRow (rowAt st.rows cur) q) := by
      rw [List.getElem?_set_self', getElem?_rowAt st.rows cur hcur]
      rfl
    have hrestore : restoreHlAt (st.rows.set cur (paintRow (rowAt st.rows cur) q)) cur
        (savedCopy (rowAt st.rows cur) junk) =
        st.rows.set cur { paintRow (rowAt st.rows cur) q with
          hl := (savedCopy (rowAt st.rows cur) junk).take
              (paintRow (rowAt st.rows cur) q).render.length ++
            (paintRow (rowAt st.rows cur) q).hl.drop
              (paintRow (rowAt st.rows cur) q).render.length } := by
      unfold restoreHlAt
      rw [hset]
      simp only [List.set_set]
    rw [hrestore] at hr'
    by_cases hic : i = cur
    · subst hic
      have hra : rowAt st.rows i = r := rowAt_eq st.rows i r hr
      rw [hra, List.getElem?_set_self', hr] at hr'
      replace hr' : some ({ paintRow r q with
          hl := (savedCopy r junk).take (paintRow r q).render.length ++
            (paintRow r q).hl.drop (paintRow r q).render.length } : Row) = some r' := hr'
      have hreq : r' = { paintRow r q with
          hl := (savedCopy r junk).take (paintRow r q).render.length ++
            (paintRow r q).hl.drop (paintRow r q).render.length } :=
        (Option.some.inj hr').symm
      obtain ⟨hp1, hp2⟩ := hpar r (List.getElem?_mem hr)
      have hc3 : r'.hl = savedCopy r junk := by
        rw [hreq]
        show (savedCopy r junk).take (paintRow r q).render.length ++
          (paintRow r q).hl.drop (paintRow r q).render.length = savedCopy r junk
        have hdrop : (paintRow r q).hl.drop (paintRow r q).render.length = [] := by
          apply List.drop_eq_nil_of_le
          show (setRange r.hl ((strstrIdx r.render q).getD 0) q.length Hl.matched).length
            ≤ r.render.length
          rw [setRange_length]
          omega
        have hlen : (savedCopy r junk).length = r.render.length := by
          unfold savedCopy
          rw [List.length_append, List.length_take, List.length_map, List.length_range]
          omega
        rw [hdrop, List.append_nil]
        show (savedCopy r junk).take r.render.length = savedCopy r junk
        exact List.take_of_length_le (le_of_eq hlen)
      refine ⟨by rw [hreq]; rfl, by rw [hreq]; rfl, ?_, ?_⟩
      · rw [hc3]
        unfold savedCopy
        rw [List.take_append_of_le_length (by rw [List.length_take]; omega),
          List.take_take, Nat.min_self]
      · intro hcc
        rw [hc3]
        unfold savedCopy
        rw [show r.render.length - r.chars.length = 0 from by omega, List.range_zero,
          List.map_nil, List.append_nil,
          show r.chars.length = r.hl.length from by omega, List.take_length]
    · rw [List.getElem?_set_ne (fun he => hic he.symm), hr] at hr'
      rw [← Option.some.inj hr']
      exact ⟨rfl, rfl, rfl, fun _ => rfl⟩

/-- The concrete buffer for the restoration counterexample: a single row
whose chars are a tab and the digit 3, so `size = 2` but `rsize = 9`. -/
def c8st : EState := editorOpen (initState 10 40) false ("\t3\n".toList)

/-- A search session that types 3 (hitting the tab row) and cancels with
ESC; the malloc'd saved-copy tail happens to hold `HL_MATCH` bytes. -/
def c8script : FindScript :=
  ⟨[⟨['3'], Key.ch '3', fun _ => Hl.matched⟩], ['3'], fun _ => Hl.normal, true⟩

/-- C8, counterexample: on the tab row the cancelled search restores the
cursor but NOT the row's highlight.  Before the search the 9 render
bytes are all `HL_NORMAL`; after ESC only the first `size = 2` highlight
entries are restored and the remaining 7 hold the uninitialised tail of
the saved copy, because the copy was filled with `memcpy(saved_hl,
row->hl, row->size)` instead of `row->rsize` bytes. -/
theorem C8_cancel_not_fully_restoring :
    (rowAt c8st.rows 0).render.length = 9 ∧
      (rowAt c8st.rows 0).chars.length = 2 ∧
      (rowAt c8st.rows 0).hl = List.replicate 9 Hl.normal ∧
      (findSession c8st c8script).cx = c8st.cx ∧
      (findSession c8st c8script).cy = c8st.cy ∧
      (rowAt (findSession c8st c8script).rows 0).hl ≠ (rowAt c8st.rows 0).hl ∧
      (rowAt (findSession c8st c8script).rows 0).hl =
        List.replicate 2 Hl.normal ++ List.replicate 7 Hl.matched := by
  decide

/-- A tab-free one-row buffer for the amended theorem's witness. -/
def c8stW : EState := editorOpen (initState 10 40) false ("ab\n".toList)

/-- C8, witness for the amended theorem: on a tab-free buffer the
cancelled search restores the cursor and the whole highlight. -/
theorem C8_cancel_restores_witness :
    (['b'] : List Char) ≠ [] ∧
      ((findSession c8stW ⟨[⟨['b'], Key.ch 'b', fun _ => Hl.normal⟩], ['b'],
          fun _ => Hl.normal, true⟩).cx = c8stW.cx ∧
        (findSession c8stW ⟨[⟨['b'], Key.ch 'b', fun _ => Hl.normal⟩], ['b'],
          fun _ => Hl.normal, true⟩).cy = c8stW.cy ∧
        (findSession c8stW ⟨[⟨['b'], Key.ch 'b', fun _ => Hl.normal⟩], ['b'],
          fun _ => Hl.normal, true⟩).coloff = c8stW.coloff ∧
        (findSession c8stW ⟨[⟨['b'], Key.ch 'b', fun _ => Hl.normal⟩], ['b'],
          fun _ => Hl.normal, true⟩).rowoff = c8stW.rowoff ∧
        ∀ (i : Nat) (r r' : Row), c8stW.rows[i]? = some r →
          (findSession c8stW ⟨[⟨['b'], Key.ch 'b', fun _ => Hl.normal⟩], ['b'],
            fun _ => Hl.normal, true⟩).rows[i]? = some r' →
          r'.chars = r.chars ∧ r'.render = r.render ∧
            r'.hl.take r.chars.length = r.hl.take r.chars.length ∧
            (r.chars.length = r.render.length → r'.hl = r.hl)) :=
  ⟨by decide,
    C8_cancel_restores c8stW ['b'] ['b'] (Key.ch 'b') (fun _ => Hl.normal) (fun _ => Hl.normal)
      rfl (by decide) (by decide) (by decide) (by decide)⟩

/-! ### Claim C9: the dirty counter -/

/-- The states the editor can be in when `editorReadKey` blocks inside
the main loop: after `initEditor` (plus the first refresh, which runs
`editorScroll`), after `initEditor` + `editorOpen` (plus the first
refresh), and after each completed `editorProcessKeypress` followed by
the refresh of the next loop iteration.  Any drawable region `sr × sc`
is allowed, including `sr = 0`: `getWindowSize` only fails on a zero
column count, so a 2-row terminal boots with `screenrows = 0`. -/
inductive Reachable : EState → Prop where
  | boot (sr sc : Nat) : Reachable (editorScroll (initState sr sc))
  | bootOpen (sr sc : Nat) (syn : Bool) (content : List Char) :
      Reachable (editorScroll (editorOpen (initState sr sc) syn content))
  | key {st : EState} (k : Key) (fs : FindScript) (ok : Bool) :
      Reachable st → Reachable (editorScroll (procKey st k fs ok).1)

/-- Step relation for the dirty-counter invariant: the step keeps
`persisted`, and can only leave `dirty = 0` if it started there and kept
the serialized buffer. -/
def dOk (st st' : EState) : Prop :=
  st'.persisted = st.persisted ∧
    (st'.dirty = 0 → st.dirty = 0 ∧ rowsToString st'.rows = rowsToString st.rows)

theorem dOk_refl (st : EState) : dOk st st := ⟨rfl, fun h => ⟨h, rfl⟩⟩

theorem dOk_trans {s1 s2 s3 : EState} (h1 : dOk s1 s2) (h2 : dOk s2 s3) : dOk s1 s3 := by
  refine ⟨h2.1.trans h1.1, fun h => ?_⟩
  obtain ⟨ha, hb⟩ := h2.2 h
  obtain ⟨hc, hd⟩ := h1.2 ha
  exact ⟨hc, hb.trans hd⟩

theorem dOk_of_same (st st' : EState) (hp : st'.persisted = st.persisted)
    (hd : st'.dirty = st.dirty) (hr : st'.rows = st.rows) : dOk st st' :=
  ⟨hp, fun h => ⟨hd.symm.trans h, congrArg rowsToString hr⟩⟩

theorem dOk_of_bump (st st' : EState) (hp : st'.persisted = st.persisted)
    (hd : st'.dirty = st.dirty + 1) : dOk st st' :=
  ⟨hp, fun h => absurd (hd.symm.trans h) (Nat.succ_ne_zero st.dirty)⟩

theorem dOk_of_dirty_ne (st st' : EState) (hp : st'.persisted = st.persisted)
    (hd : st'.dirty = st.dirty) (h0 : st.dirty ≠ 0) : dOk st st' :=
  ⟨hp, fun h => absurd (hd.symm.trans h) h0⟩

/-- The dirty-counter invariant: a clean buffer matches the persisted
bytes. -/
def dirtyInv (st : EState) : Prop := st.dirty = 0 → rowsToString st.rows = st.persisted

theorem dOk_dirtyInv {st st' : EState} (h : dOk st st') (hi : dirtyInv st) : dirtyInv st' := by
  intro h0
  obtain ⟨ha, hb⟩ := h.2 h0
  rw [hb, hi ha, h.1]

theorem lt_length_of_getElem?_some {α : Type} {l : List α} {i : Nat} {x : α}
    (h : l[i]? = some x) : i < l.length := by
  by_contra hge
  push_neg at hge
  rw [List.getElem?_eq_none hge] at h
  exact Option.noConfusion h

theorem dOk_insertRow (st : EState) (a : Nat) (s : List Char) :
    dOk st (editorInsertRow st a s) := by
  unfold editorInsertRow
  split_ifs with h
  · exact dOk_refl st
  · exact dOk_of_bump st _ rfl rfl

theorem dOk_withRowsUpd (st : EState) (rows1 : List Row) (i : Nat) :
    dOk st (withRowsUpd st rows1 i) := dOk_of_bump st _ rfl rfl

theorem dOk_rowInsertChar (st : EState) (i at_ : Nat) (c : Char) :
    dOk st (editorRowInsertChar st i at_ c) := by
  unfold editorRowInsertChar
  split
  · exact dOk_refl st
  · exact dOk_withRowsUpd st _ _

theorem dOk_rowAppendString (st : EState) (i : Nat) (s : List Char) :
    dOk st (editorRowAppendString st i s) := by
  unfold editorRowAppendString
  split
  · exact dOk_refl st
  · exact dOk_withRowsUpd st _ _

theorem dOk_rowDelChar (st : EState) (i at_ : Nat) : dOk st (editorRowDelChar st i at_) := by
  unfold editorRowDelChar
  split
  · exact dOk_refl st
  · split_ifs with h
    · exact dOk_refl st
    · exact dOk_withRowsUpd st _ _

theorem dOk_delRow (st : EState) (a : Nat) : dOk st (editorDelRow st a) := by
  unfold editorDelRow
  split_ifs with h
  · exact dOk_refl st
  · exact dOk_of_bump st _ rfl rfl

theorem dOk_bumpCx (st : EState) : dOk st (bumpCx st) := dOk_of_same st _ rfl rfl rfl

theorem dOk_bumpCyNL (st : EState) : dOk st (bumpCyNL st) := dOk_of_same st _ rfl rfl rfl

theorem dOk_insertChar (st : EState) (c : Char) : dOk st (editorInsertChar st c) := by
  unfold editorInsertChar
  split_ifs with h
  · exact dOk_trans (dOk_trans (dOk_insertRow st _ _) (dOk_rowInsertChar _ _ _ _)) (dOk_bumpCx _)
  · exact dOk_trans (dOk_rowInsertChar st _ _ _) (dOk_bumpCx _)

theorem truncate_persisted (st : EState) (cy cx : Nat) :
    (truncateRowStep st cy cx).persisted = st.persisted := by
  unfold truncateRowStep
  split <;> rfl

theorem truncate_dirty (st : EState) (cy cx : Nat) :
    (truncateRowStep st cy cx).dirty = st.dirty := by
  unfold truncateRowStep
  split <;> rfl

theorem dOk_insertNewline (st : EState) : dOk st (editorInsertNewline st) := by
  unfold editorInsertNewline
  split_ifs with h
  · exact dOk_trans (dOk_insertRow st _ _) (dOk_bumpCyNL _)
  · refine dOk_trans ?_ (dOk_bumpCyNL _)
    unfold splitRowStep
    split
    · exact dOk_refl st
    · rename_i r hr
      refine dOk_trans (dOk_insertRow st (st.cy + 1) (r.chars.drop st.cx)) ?_
      have hlt : st.cy < st.rows.length := lt_length_of_getElem?_some hr
      have hmd : (editorInsertRow st (st.cy + 1) (r.chars.drop st.cx)).dirty = st.dirty + 1 := by
        unfold editorInsertRow
        rw [if_neg (by omega)]
      exact dOk_of_dirty_ne _ _ (truncate_persisted _ _ _) (truncate_dirty _ _ _)
        (by rw [hmd]; omega)

theorem dOk_mergeRows (st : EState) : dOk st (mergeRowsStep st) := by
  unfold mergeRowsStep
  exact dOk_trans (dOk_trans (dOk_rowAppendString st _ _) (dOk_delRow _ _))
    (dOk_of_same _ _ rfl rfl rfl)

theorem dOk_delChar (st : EState) : dOk st (editorDelChar st) := by
  unfold editorDelChar
  split_ifs with h1 h2 h3
  · exact dOk_refl st
  · exact dOk_refl st
  · exact dOk_trans (dOk_rowDelChar st _ _) (dOk_of_same _ _ rfl rfl rfl)
  · exact dOk_mergeRows st

theorem dOk_clampCx (st : EState) : dOk st (clampCx st) := by
  unfold clampCx
  split_ifs <;> exact dOk_refl st

theorem dOk_moveCursorSwitch (st : EState) (k : Key) : dOk st (moveCursorSwitch st k) := by
  unfold moveCursorSwitch
  cases k <;> split_ifs <;> exact dOk_refl st

theorem dOk_moveCursor (st : EState) (k : Key) : dOk st (editorMoveCursor st k) := by
  unfold editorMoveCursor
  exact dOk_trans (dOk_moveCursorSwitch st k) (dOk_clampCx _)

theorem dOk_moveTimes (k : Key) : ∀ (n : Nat) (st : EState), dOk st (moveTimes st k n) := by
  intro n
  induction n with
  | zero => intro st; exact dOk_refl st
  | succ m ih => intro st; exact dOk_trans (dOk_moveCursor st k) (ih (editorMoveCursor st k))

/-- Overwriting one row with a row holding the same `chars` does not
change the serialized buffer. -/
theorem rowsToString_set_same_chars (rows : List Row) (i : Nat) (r' : Row)
    (h : ∀ r, rows[i]? = some r → r'.chars = r.chars) :
    rowsToString (rows.set i r') = rowsToString rows := by
  unfold rowsToString
  congr 1
  apply List.ext_getElem?
  intro j
  rw [List.getElem?_map, List.getElem?_map]
  by_cases hj : i = j
  · subst hj
    rw [List.getElem?_set_self']
    rcases hr : rows[i]? with _ | r0
    · rfl
    · have hc := h r0 hr
      have h1 : (Function.const Row r' <$> some r0) = some r' := rfl
      rw [h1]
      simp [hc]
  · rw [List.getElem?_set_ne hj]

theorem dOk_fcRestore (st : EState) : dOk st (fcRestore st) := by
  unfold fcRestore
  split
  · rename_i line saved heq
    refine ⟨rfl, fun h => ⟨h, ?_⟩⟩
    show rowsToString (restoreHlAt st.rows line saved) = rowsToString st.rows
    unfold restoreHlAt
    split
    · rfl
    · rename_i r heq2
      refine rowsToString_set_same_chars st.rows line _ (fun r0 hr0 => ?_)
      have he : r = r0 := Option.some.inj (heq2.symm.trans hr0)
      rw [← he]
  · exact dOk_refl st

theorem dOk_fcSetDir (st : EState) (k : Key) : dOk st (fcSetDir st k) := by
  unfold fcSetDir
  split_ifs <;> exact dOk_of_same _ _ rfl rfl rfl

theorem dOk_fcForce (st : EState) : dOk st (fcForce st) := by
  unfold fcForce
  split_ifs <;> exact dOk_of_same _ _ rfl rfl rfl

theorem dOk_fcSearch (st : EState) (junk : Nat → Hl) (q : List Char) :
    dOk st (fcSearch st junk q) := by
  unfold fcSearch
  split
  · exact dOk_refl st
  · rename_i cur heq
    refine ⟨rfl, fun h => ⟨h, ?_⟩⟩
    show rowsToString (st.rows.set cur { rowAt st.rows cur with
      hl := setRange (rowAt st.rows cur).hl ((strstrIdx (rowAt st.rows cur).render q).getD 0)
        q.length Hl.matched }) = rowsToString st.rows
    refine rowsToString_set_same_chars st.rows cur _ (fun r0 hr0 => ?_)
    have he := rowAt_eq st.rows cur r0 hr0
    rw [← he]

theorem dOk_findCallbackStep (st : EState) (junk : Nat → Hl) (q : List Char) (k : Key) :
    dOk st (findCallbackStep st junk q k) := by
  unfold findCallbackStep
  split_ifs with h
  · exact dOk_trans (dOk_fcRestore st) (dOk_of_same _ _ rfl rfl rfl)
  · exact dOk_trans (dOk_fcRestore st) (dOk_trans (dOk_fcSetDir _ k)
      (dOk_trans (dOk_fcForce _) (dOk_fcSearch _ junk q)))

theorem dOk_findFold (evs : List FindEv) : ∀ st : EState,
    dOk st (evs.foldl (fun s ev => findCallbackStep s ev.junk ev.q ev.key) st) := by
  induction evs with
  | nil => intro st; exact dOk_refl st
  | cons e es ih =>
    intro st
    exact dOk_trans (dOk_findCallbackStep st e.junk e.q e.key)
      (ih (findCallbackStep st e.junk e.q e.key))

theorem dOk_findSession (st : EState) (fs : FindScript) : dOk st (findSession st fs) := by
  unfold findSession
  split_ifs with h
  · exact dOk_trans (dOk_trans (dOk_findFold fs.evs st)
      (dOk_findCallbackStep _ fs.lastJunk fs.lastQ escKey)) (dOk_of_same _ _ rfl rfl rfl)
  · exact dOk_trans (dOk_findFold fs.evs st)
      (dOk_findCallbackStep _ fs.lastJunk fs.lastQ enterKey)

theorem dirtyInv_save (st : EState) (ok : Bool) (h : dirtyInv st) :
    dirtyInv (editorSave st ok) := by
  unfold editorSave
  split_ifs with hok
  · intro _
    rfl
  · exact dOk_dirtyInv (dOk_of_same _ _ rfl rfl rfl) h

/-- Case analysis on one `editorProcessKeypress` dispatch: to prove a
property of the state after any keypress it suffices to prove it for
each branch of the `switch`. -/
theorem procKey_elim (P : EState → Prop) (st : EState) (k : Key) (fs : FindScript) (ok : Bool)
    (hEnter : P { editorInsertNewline st with quitTimes := 3 })
    (hWarn : P { st with statusmsg := quitWarn st.quitTimes, quitTimes := st.quitTimes - 1 })
    (hId : P st)
    (hSave : P { editorSave st ok with quitTimes := 3 })
    (hHome : P { st with cx := 0, quitTimes := 3 })
    (hEnd1 : st.cy < st.rows.length →
      P { st with cx := (rowAt st.rows st.cy).chars.length, quitTimes := 3 })
    (hQuiet : P { st with quitTimes := 3 })
    (hFind : P { findSession st fs with quitTimes := 3 })
    (hDel : P { editorDelChar (editorMoveCursor st Key.arrowRight) with quitTimes := 3 })
    (hBs : P { editorDelChar st with quitTimes := 3 })
    (hPgUp : P { moveTimes { st with cy := st.rowoff } Key.arrowUp st.screenrows with
      quitTimes := 3 })
    (hPgDn : P { moveTimes { st with cy := if st.rowoff + st.screenrows - 1 > st.rows.length
        then st.rows.length else st.rowoff + st.screenrows - 1 } Key.arrowDown st.screenrows with
      quitTimes := 3 })
    (hArrow : ∀ k' : Key, P { editorMoveCursor st k' with quitTimes := 3 })
    (hCh : ∀ c : Char, P { editorInsertChar st c with quitTimes := 3 }) :
    P (procKey st k fs ok).1 := by
  cases k with
  | arrowLeft => exact hArrow Key.arrowLeft
  | arrowRight => exact hArrow Key.arrowRight
  | arrowUp => exact hArrow Key.arrowUp
  | arrowDown => exact hArrow Key.arrowDown
  | delKey => exact hDel
  | homeKey => exact hHome
  | pageUp => exact hPgUp
  | pageDown => exact hPgDn
  | endKey =>
    by_cases hcy : st.cy < st.rows.length
    · have he : procKey st Key.endKey fs ok =
          ({ st with cx := (rowAt st.rows st.cy).chars.length, quitTimes := 3 }, false) := by
        unfold procKey
        rw [if_neg (by decide), if_neg (by decide), if_neg (by decide), if_neg (by decide),
          if_pos rfl, if_pos hcy]
      rw [he]
      exact hEnd1 hcy
    · have he : procKey st Key.endKey fs ok = ({ st with quitTimes := 3 }, false) := by
        unfold procKey
        rw [if_neg (by decide), if_neg (by decide), if_neg (by decide), if_neg (by decide),
          if_pos rfl, if_neg hcy]
      rw [he]
      exact hQuiet
  | ch c =>
    by_cases h1 : Key.ch c = enterKey
    · rw [h1]
      exact hEnter
    · by_cases h2 : Key.ch c = ctrlQ
      · rw [h2, procKey_ctrlQ st fs ok]
        by_cases h2b : st.dirty ≠ 0 ∧ st.quitTimes > 0
        · rw [if_pos h2b]
          exact hWarn
        · rw [if_neg h2b]
          exact hId
      · by_cases h3 : Key.ch c = ctrlS
        · rw [h3]
          exact hSave
        · by_cases h4 : Key.ch c = ctrlF
          · rw [h4]
            exact hFind
          · by_cases h5 : Key.ch c = backspaceKey
            · rw [h5]
              exact hBs
            · by_cases h6 : Key.ch c = ctrlH
              · rw [h6]
                exact hBs
              · by_cases h7 : Key.ch c = ctrlL
                · rw [h7]
                  exact hQuiet
                · by_cases h8 : Key.ch c = escKey
                  · rw [h8]
                    exact hQuiet
                  · have he : procKey st (Key.ch c) fs ok =
                        ({ editorInsertChar st c with quitTimes := 3 }, false) := by
                      unfold procKey
                      rw [if_neg h1, if_neg h2, if_neg h3,
                        if_neg (fun he => Key.noConfusion he),
                        if_neg (fun he => Key.noConfusion he), if_neg h4,
                        if_neg (by
                          intro hor
                          rcases hor with h | h | h
                          · exact h5 h
                          · exact h6 h
                          · exact Key.noConfusion h),
                        if_neg (fun he => Key.noConfusion he),
                        if_neg (fun he => Key.noConfusion he),
                        if_neg (by
                          intro hor
                          rcases hor with h | h | h | h <;> exact Key.noConfusion h),
                        if_neg (by
                          intro hor
                          rcases hor with h | h
                          · exact h7 h
                          · exact h8 h)]
                    rw [he]
                    exact hCh c

/-- One keypress preserves the dirty-counter invariant. -/
theorem procKey_dirtyInv (st : EState) (k : Key) (fs : FindScript) (ok : Bool)
    (h : dirtyInv st) : dirtyInv (procKey st k fs ok).1 := by
  refine procKey_elim (fun s => dirtyInv s) st k fs ok ?_ ?_ ?_ ?_ ?_ ?_ ?_ ?_ ?_ ?_ ?_ ?_ ?_ ?_
  · exact dOk_dirtyInv (dOk_trans (dOk_insertNewline st) (dOk_of_same _ _ rfl rfl rfl)) h
  · exact dOk_dirtyInv (dOk_of_same _ _ rfl rfl rfl) h
  · exact h
  · exact dirtyInv_save st ok h
  · exact dOk_dirtyInv (dOk_of_same _ _ rfl rfl rfl) h
  · intro hcy
    exact dOk_dirtyInv (dOk_of_same _ _ rfl rfl rfl) h
  · exact dOk_dirtyInv (dOk_of_same _ _ rfl rfl rfl) h
  · exact dOk_dirtyInv (dOk_trans (dOk_findSession st fs) (dOk_of_same _ _ rfl rfl rfl)) h
  · exact dOk_dirtyInv (dOk_trans (dOk_trans (dOk_moveCursor st Key.arrowRight)
      (dOk_delChar _)) (dOk_of_same _ _ rfl rfl rfl)) h
  · exact dOk_dirtyInv (dOk_trans (dOk_delChar st) (dOk_of_same _ _ rfl rfl rfl)) h
  · refine dOk_dirtyInv (dOk_trans (dOk_trans
      (dOk_of_same st { st with cy := st.rowoff } rfl rfl rfl)
      (dOk_moveTimes Key.arrowUp st.screenrows { st with cy := st.rowoff })) ?_) h
    exact dOk_of_same _ _ rfl rfl rfl
  · refine dOk_dirtyInv (dOk_trans (dOk_trans
      (dOk_of_same st { st with cy := if st.rowoff + st.screenrows - 1 > st.rows.length
        then st.rows.length else st.rowoff + st.screenrows - 1 } rfl rfl rfl)
      (dOk_moveTimes Key.arrowDown st.screenrows
        { st with cy := if st.rowoff + st.screenrows - 1 > st.rows.length
          then st.rows.length else st.rowoff + st.screenrows - 1 })) ?_) h
    exact dOk_of_same _ _ rfl rfl rfl
  · intro k'
    exact dOk_dirtyInv (dOk_trans (dOk_moveCursor st k') (dOk_of_same _ _ rfl rfl rfl)) h
  · intro c
    exact dOk_dirtyInv (dOk_trans (dOk_insertChar st c) (dOk_of_same _ _ rfl rfl rfl)) h

/-- C9 (amended): `dirty` is a non-negative counter (a `Nat` in the
model) and in every reachable editor state `dirty = 0` implies that the
serialized buffer equals the bytes last loaded by `editorOpen` or last
written by a successful save (the ghost field `persisted`).  The
converse of the claim's "if and only if" is false: see the
counterexample, where an insertion followed by a deletion restores the
bytes but leaves `dirty = 2`. -/
theorem C9_dirty_zero_matches_persisted (st : EState) (h : Reachable st) :
    st.dirty = 0 → rowsToString st.rows = st.persisted := by
  induction h with
  | boot sr sc =>
    exact dOk_dirtyInv (dOk_of_same _ _ rfl rfl rfl) (fun _ => rfl)
  | bootOpen sr sc syn content =>
    exact dOk_dirtyInv (dOk_of_same _ _ rfl rfl rfl) (fun _ => rfl)
  | key k fs ok hst ih =>
    exact dOk_dirtyInv (dOk_of_same _ _ rfl rfl rfl) (procKey_dirtyInv _ k fs ok ih)

/-- C9, witness: right after opening a file the buffer is clean and
serializes to the persisted bytes. -/
theorem C9_dirty_zero_matches_persisted_witness :
    rowsToString (editorScroll (editorOpen (initState 24 80) false ("hi\n".toList))).rows =
      (editorScroll (editorOpen (initState 24 80) false ("hi\n".toList))).persisted :=
  C9_dirty_zero_matches_persisted _ (Reachable.bootOpen 24 80 false ("hi\n".toList)) rfl

/-- The reachable state refuting the "only if" direction: open `"x\n"`,
type `y`, then press BACKSPACE. -/
def c9s0 : EState := editorScroll (editorOpen (initState 20 80) false ("x\n".toList))

def c9s1 : EState := editorScroll (procKey c9s0 (Key.ch 'y') noScript true).1

def c9st : EState := editorScroll (procKey c9s1 backspaceKey noScript true).1

/-- C9, counterexample to the claimed equivalence: a reachable state
whose buffer serializes exactly to the persisted bytes while
`dirty = 2` (one increment for the insertion, one for the deletion), so
`dirty = 0` is not equivalent to "buffer equals last loaded/saved
bytes". -/
theorem C9_dirty_not_iff :
    Reachable c9st ∧ rowsToString c9st.rows = c9st.persisted ∧ c9st.dirty = 2 :=
  ⟨Reachable.key backspaceKey noScript true
      (Reachable.key (Key.ch 'y') noScript true
        (Reachable.bootOpen 20 80 false ("x\n".toList))),
    by decide, by decide⟩

/-! ### Claim C10: implicit cursor bounds -/

/-- The cursor-bounds invariant of the claim: `cy` never exceeds the row
count, `cx` stays within the current row, and on the virtual line past
the end `cx` is 0. -/
def cursorOk (st : EState) : Prop :=
  st.cy ≤ st.rows.length ∧
    (st.cy < st.rows.length → st.cx ≤ (rowAt st.rows st.cy).chars.length) ∧
    (st.cy = st.rows.length → st.cx = 0)

/-- What holds right after a keypress completes, before the next
refresh runs `editorScroll`. -/
def midOk (st : EState) : Prop := 1 ≤ st.screenrows ∧ st.lastMatch = -1 ∧ cursorOk st

/-- What holds whenever the main loop is about to read a key: the
refresh of the current iteration has run `editorScroll`, which also
pulls `rowoff` back to at most `cy`. -/
def keyInv (st : EState) : Prop :=
  1 ≤ st.screenrows ∧ st.rowoff ≤ st.cy ∧ st.lastMatch = -1 ∧ cursorOk st

theorem rowAt_set_self (rows : List Row) (i : Nat) (r' : Row) (h : i < rows.length) :
    rowAt (rows.set i r') i = r' := by
  unfold rowAt
  rw [List.getD_eq_getElem?_getD, List.getElem?_set_self', getElem?_rowAt rows i h]
  rfl

theorem rowAt_set_ne (rows : List Row) (i j : Nat) (r' : Row) (h : i ≠ j) :
    rowAt (rows.set i r') j = rowAt rows j := by
  unfold rowAt
  rw [List.getD_eq_getElem?_getD, List.getD_eq_getElem?_getD, List.getElem?_set_ne h]

theorem updateRowAt_map_chars (syn : Bool) (nb : Nat) (rows : List Row) (i : Nat) :
    (editorUpdateRowAt syn nb rows i).map (fun r : Row => r.chars) =
      rows.map (fun r : Row => r.chars) :=
  map_chars_eq_of_getElem _ _ (fun j => editorUpdateRowAt_chars syn nb rows i j)

theorem length_of_map_chars {l1 l2 : List Row}
    (h : l1.map (fun r : Row => r.chars) = l2.map (fun r : Row => r.chars)) :
    l1.length = l2.length := by
  have h2 := congrArg List.length h
  rw [List.length_map, List.length_map] at h2
  exact h2

theorem chars_rowAt_of_map {l1 l2 : List Row}
    (h : l1.map (fun r : Row => r.chars) = l2.map (fun r : Row => r.chars)) (j : Nat) :
    (rowAt l1 j).chars = (rowAt l2 j).chars := by
  have h1 : (l1[j]?).map (fun r : Row => r.chars) = (l2[j]?).map (fun r : Row => r.chars) := by
    rw [← List.getElem?_map, ← List.getElem?_map, h]
  unfold rowAt
  rw [List.getD_eq_getElem?_getD, List.getD_eq_getElem?_getD]
  rcases hx : l1[j]? with _ | r1 <;> rcases hy : l2[j]? with _ | r2 <;>
    rw [hx, hy] at h1 <;>
    simp only [Option.map_none', Option.map_some'] at h1 <;>
    first
      | rfl
      | exact Option.noConfusion h1
      | (show r1.chars = r2.chars
         exact Option.some.inj h1)

theorem set_getElem?_self {α : Type} (l : List α) (n : Nat) (a : α) (h : l[n]? = some a) :
    l.set n a = l := by
  apply List.ext_getElem?
  intro j
  by_cases hj : n = j
  · subst hj
    rw [List.getElem?_set_self', h]
    rfl
  · rw [List.getElem?_set_ne hj]

theorem map_chars_set_same (rows : List Row) (i : Nat) (r r' : Row)
    (h : rows[i]? = some r) (hc : r'.chars = r.chars) :
    (rows.set i r').map (fun q : Row => q.chars) = rows.map (fun q : Row => q.chars) := by
  rw [List.map_set]
  apply set_getElem?_self
  rw [List.getElem?_map, h]
  show some r.chars = some r'.chars
  rw [hc]

theorem withRowsUpd_length (st : EState) (rows1 : List Row) (i : Nat) :
    (withRowsUpd st rows1 i).rows.length = rows1.length := by
  show (editorUpdateRowAt st.syntaxOn rows1.length rows1 i).length = rows1.length
  exact editorUpdateRowAt_length _ _ _ _

theorem withRowsUpd_chars (st : EState) (rows1 : List Row) (i j : Nat) :
    (rowAt (withRowsUpd st rows1 i).rows j).chars = (rowAt rows1 j).chars :=
  chars_rowAt_of_map (updateRowAt_map_chars st.syntaxOn rows1.length rows1 i) j

theorem rowAt_eraseIdx_of_lt (rows : List Row) (n m : Nat) (h1 : m < n)
    (h2 : m < rows.length) : rowAt (rows.eraseIdx n) m = rowAt rows m := by
  unfold rowAt
  rw [List.getD_eq_getElem?_getD, List.getD_eq_getElem?_getD,
    List.eraseIdx_eq_take_drop_succ, List.getElem?_append,
    if_pos (by rw [List.length_take]; omega), List.getElem?_take, if_pos h1]

theorem cursorOk_transfer {s s' : EState} (h : cursorOk s)
    (hcy : s'.cy = s.cy) (hcx : s'.cx = s.cx)
    (hmap : s'.rows.map (fun r : Row => r.chars) = s.rows.map (fun r : Row => r.chars)) :
    cursorOk s' := by
  obtain ⟨h1, h2, h3⟩ := h
  have hlen := length_of_map_chars hmap
  refine ⟨?_, ?_, ?_⟩
  · rw [hcy, hlen]
    exact h1
  · intro hlt
    rw [hcy, hlen] at hlt
    rw [hcx, hcy, chars_rowAt_of_map hmap s.cy]
    exact h2 hlt
  · intro he
    rw [hcy, hlen] at he
    rw [hcx]
    exact h3 he

theorem clampCx_ok (st : EState) :
    (clampCx st).cx ≤ (if st.cy < st.rows.length
        then (rowAt st.rows st.cy).chars.length else 0) ∧
      (clampCx st).cy = st.cy ∧ (clampCx st).rows = st.rows := by
  by_cases h : st.cx > (if st.cy < st.rows.length then (rowAt st.rows st.cy).chars.length else 0)
  · have he : clampCx st = { st with cx := if st.cy < st.rows.length
        then (rowAt st.rows st.cy).chars.length else 0 } := by
      unfold clampCx
      rw [if_pos h]
    rw [he]
    exact ⟨le_refl _, rfl, rfl⟩
  · have he : clampCx st = st := by
      unfold clampCx
      rw [if_neg h]
    rw [he]
    exact ⟨by omega, rfl, rfl⟩

theorem mcs_arrowLeft (st : EState) : moveCursorSwitch st Key.arrowLeft =
    (if st.cx ≠ 0 then { st with cx := st.cx - 1 }
     else if st.cy > 0 then
       { st with cy := st.cy - 1, cx := (rowAt st.rows (st.cy - 1)).chars.length }
     else st) := rfl

theorem mcs_arrowRight (st : EState) : moveCursorSwitch st Key.arrowRight =
    (if st.cy < st.rows.length then
      if st.cx < (rowAt st.rows st.cy).chars.length then { st with cx := st.cx + 1 }
      else if st.cx = (rowAt st.rows st.cy).chars.length then { st with cy := st.cy + 1, cx := 0 }
      else st
    else st) := rfl

theorem mcs_arrowUp (st : EState) : moveCursorSwitch st Key.arrowUp =
    (if st.cy ≠ 0 then { st with cy := st.cy - 1 } else st) := rfl

theorem mcs_arrowDown (st : EState) : moveCursorSwitch st Key.arrowDown =
    (if st.cy < st.rows.length then { st with cy := st.cy + 1 } else st) := rfl

theorem mcs_cy_le (st : EState) (k : Key) (h : st.cy ≤ st.rows.length) :
    (moveCursorSwitch st k).cy ≤ (moveCursorSwitch st k).rows.length := by
  cases k with
  | arrowLeft =>
    rw [mcs_arrowLeft]
    split_ifs with h1 h2
    · exact h
    · show st.cy - 1 ≤ st.rows.length
      omega
    · exact h
  | arrowRight =>
    rw [mcs_arrowRight]
    split_ifs with h1 h2 h3
    · exact h
    · show st.cy + 1 ≤ st.rows.length
      omega
    · exact h
    · exact h
  | arrowUp =>
    rw [mcs_arrowUp]
    split_ifs with h1
    · show st.cy - 1 ≤ st.rows.length
      omega
    · exact h
  | arrowDown =>
    rw [mcs_arrowDown]
    split_ifs with h1
    · show st.cy + 1 ≤ st.rows.length
      omega
    · exact h
  | ch c => exact h
  | delKey => exact h
  | homeKey => exact h
  | endKey => exact h
  | pageUp => exact h
  | pageDown => exact h

theorem mcs_frame (st : EState) (k : Key) : (moveCursorSwitch st k).rows = st.rows ∧
    (moveCursorSwitch st k).screenrows = st.screenrows ∧
    (moveCursorSwitch st k).lastMatch = st.lastMatch := by
  unfold moveCursorSwitch
  cases k <;> split_ifs <;> exact ⟨rfl, rfl, rfl⟩

theorem clampCx_frame (st : EState) : (clampCx st).rows = st.rows ∧
    (clampCx st).screenrows = st.screenrows ∧ (clampCx st).lastMatch = st.lastMatch := by
  unfold clampCx
  split_ifs <;> exact ⟨rfl, rfl, rfl⟩

theorem mc_frame (st : EState) (k : Key) : (editorMoveCursor st k).rows = st.rows ∧
    (editorMoveCursor st k).screenrows = st.screenrows ∧
    (editorMoveCursor st k).lastMatch = st.lastMatch := by
  unfold editorMoveCursor
  obtain ⟨a1, a2, a3⟩ := clampCx_frame (moveCursorSwitch st k)
  obtain ⟨b1, b2, b3⟩ := mcs_frame st k
  exact ⟨a1.trans b1, a2.trans b2, a3.trans b3⟩

theorem moveCursor_cursorOk (st : EState) (k : Key) (h : st.cy ≤ st.rows.length) :
    cursorOk (editorMoveCursor st k) := by
  unfold editorMoveCursor
  obtain ⟨hc1, hc2, hc3⟩ := clampCx_ok (moveCursorSwitch st k)
  have h1 := mcs_cy_le st k h
  refine ⟨?_, ?_, ?_⟩
  · rw [hc2, hc3]
    exact h1
  · intro hlt
    rw [hc2, hc3] at hlt ⊢
    have h2 := hc1
    rw [if_pos hlt] at h2
    exact h2
  · intro he
    rw [hc2, hc3] at he
    have h2 := hc1
    rw [if_neg (by omega)] at h2
    omega

theorem moveTimes_frame (k : Key) : ∀ (n : Nat) (st : EState),
    (moveTimes st k n).rows = st.rows ∧
      (moveTimes st k n).screenrows = st.screenrows ∧
      (moveTimes st k n).lastMatch = st.lastMatch := by
  intro n
  induction n with
  | zero => intro st; exact ⟨rfl, rfl, rfl⟩
  | succ m ih =>
    intro st
    obtain ⟨a1, a2, a3⟩ := ih (editorMoveCursor st k)
    obtain ⟨b1, b2, b3⟩ := mc_frame st k
    exact ⟨a1.trans b1, a2.trans b2, a3.trans b3⟩

theorem moveTimes_cursorOk (k : Key) : ∀ (n : Nat) (st : EState),
    st.cy ≤ st.rows.length → cursorOk (moveTimes st k (n + 1)) := by
  intro n
  induction n with
  | zero =>
    intro st h
    exact moveCursor_cursorOk st k h
  | succ m ih =>
    intro st h
    exact ih (editorMoveCursor st k) (moveCursor_cursorOk st k h).1

theorem moveTimes_cursorOk_of_pos (k : Key) (n : Nat) (hn : 1 ≤ n) (st : EState)
    (h : st.cy ≤ st.rows.length) : cursorOk (moveTimes st k n) := by
  obtain ⟨m, rfl⟩ : ∃ m, n = m + 1 := ⟨n - 1, by omega⟩
  exact moveTimes_cursorOk k m st h

theorem rxToCxGo_le_len : ∀ (cs : List Char) (rx cur cnt : Nat),
    rxToCxGo cs rx cur cnt ≤ cnt + cs.length := by
  intro cs
  induction cs with
  | nil => intro rx cur cnt; exact Nat.le_add_right cnt 0
  | cons c cs ih =>
    intro rx cur cnt
    show (if cur + (if c = '\t' then (8 - 1) - cur % 8 + 1 else 1) > rx then cnt
      else rxToCxGo cs rx (cur + (if c = '\t' then (8 - 1) - cur % 8 + 1 else 1)) (cnt + 1))
      ≤ cnt + (c :: cs).length
    have h3 : (c :: cs).length = cs.length + 1 := rfl
    by_cases h : cur + (if c = '\t' then (8 - 1) - cur % 8 + 1 else 1) > rx
    · rw [if_pos h]
      omega
    · rw [if_neg h]
      have h4 := ih rx (cur + (if c = '\t' then (8 - 1) - cur % 8 + 1 else 1)) (cnt + 1)
      omega

theorem rxToCx_le (chars : List Char) (rx : Nat) : rxToCx chars rx ≤ chars.length := by
  unfold rxToCx
  have h := rxToCxGo_le_len chars rx 0 0
  omega

/-- With a ±1 direction, a start cursor below `numrows` and at most
`numrows` iterations, any index the search loop returns is in range. -/
theorem findLoopGo_bounded (rows : List Row) (q : List Char) (d : Int)
    (hd : d = 1 ∨ d = -1) : ∀ (fuel : Nat), fuel ≤ rows.length →
    ∀ (cur : Int), cur < (rows.length : Int) →
    ∀ (j : Nat), findLoopGo rows q d fuel cur = some j → j < rows.length := by
  intro fuel
  induction fuel with
  | zero => intro _ cur _ j h; exact Option.noConfusion h
  | succ f ih =>
    intro hf cur hcur j h
    have hn : 1 ≤ rows.length := by omega
    have hstep : findLoopGo rows q d (f + 1) cur =
        (if matchesQ rows q (wrapIdx rows.length (cur + d)).toNat then
          some (wrapIdx rows.length (cur + d)).toNat
        else findLoopGo rows q d f (wrapIdx rows.length (cur + d))) := rfl
    rw [hstep] at h
    have hw : wrapIdx rows.length (cur + d) < (rows.length : Int) := by
      unfold wrapIdx
      split_ifs with g1 g2 <;> rcases hd with rfl | rfl <;> omega
    have hwt : (wrapIdx rows.length (cur + d)).toNat < rows.length := by omega
    by_cases hp : matchesQ rows q (wrapIdx rows.length (cur + d)).toNat = true
    · rw [if_pos hp] at h
      rw [← Option.some.inj h]
      exact hwt
    · rw [if_neg hp] at h
      exact ih (by omega) _ hw j h

/-- Invariant carried through one incremental-search prompt session:
screen height and the `chars` of every row are those of the session's
entry state, the static `last_match` is within range, and the cursor is
within bounds. -/
def sessionOk (st0 s : EState) : Prop :=
  s.screenrows = st0.screenrows ∧
    s.rows.map (fun r : Row => r.chars) = st0.rows.map (fun r : Row => r.chars) ∧
    (s.lastMatch = -1 ∨ (0 ≤ s.lastMatch ∧ s.lastMatch < (s.rows.length : Int))) ∧
    cursorOk s

theorem restoreHlAt_map_chars (rows : List Row) (line : Nat) (saved : List Hl) :
    (restoreHlAt rows line saved).map (fun r : Row => r.chars) =
      rows.map (fun r : Row => r.chars) := by
  unfold restoreHlAt
  split
  · rfl
  · rename_i r heq
    exact map_chars_set_same rows line r _ heq rfl

theorem sessionOk_fcRestore (st0 s : EState) (h : sessionOk st0 s) :
    sessionOk st0 (fcRestore s) := by
  unfold fcRestore
  split
  · rename_i line saved heq
    have hm := restoreHlAt_map_chars s.rows line saved
    refine ⟨h.1, hm.trans h.2.1, ?_, ?_⟩
    · rcases h.2.2.1 with h1 | ⟨h1, h2⟩
      · exact Or.inl h1
      · refine Or.inr ⟨h1, ?_⟩
        show s.lastMatch < ((restoreHlAt s.rows line saved).length : Int)
        rw [length_of_map_chars hm]
        exact h2
    · exact cursorOk_transfer h.2.2.2 rfl rfl hm
  · exact h

theorem sessionOk_fcSetDir (st0 s : EState) (k : Key) (h : sessionOk st0 s) :
    sessionOk st0 (fcSetDir s k) := by
  unfold fcSetDir
  split_ifs with g1 g2
  · exact ⟨h.1, h.2.1, h.2.2.1, h.2.2.2⟩
  · exact ⟨h.1, h.2.1, h.2.2.1, h.2.2.2⟩
  · exact ⟨h.1, h.2.1, Or.inl rfl, h.2.2.2⟩

theorem sessionOk_fcForce (st0 s : EState) (h : sessionOk st0 s) :
    sessionOk st0 (fcForce s) := by
  unfold fcForce
  split_ifs with g1
  · exact ⟨h.1, h.2.1, h.2.2.1, h.2.2.2⟩
  · exact h

theorem fcForce_fcSetDir_direction (x : EState) (k : Key) :
    (fcForce (fcSetDir x k)).direction = 1 ∨ (fcForce (fcSetDir x k)).direction = -1 := by
  unfold fcForce fcSetDir
  split_ifs <;> first | exact Or.inl rfl | exact Or.inr rfl

/-- The state written by a search hit keeps the session invariant. -/
theorem sessionOk_search_hit (st0 s : EState) (cur : Nat) (cx2 roff : Nat)
    (sv : Option (Nat × List Hl)) (r' : Row)
    (hcur : cur < s.rows.length) (hchars : r'.chars = (rowAt s.rows cur).chars)
    (hcx2 : cx2 ≤ (rowAt s.rows cur).chars.length)
    (h : sessionOk st0 s) :
    sessionOk st0 { s with
      lastMatch := (cur : Int)
      cy := cur
      cx := cx2
      rowoff := roff
      savedHl := sv
      rows := s.rows.set cur r' } := by
  have hm : (s.rows.set cur r').map (fun r : Row => r.chars) =
      s.rows.map (fun r : Row => r.chars) :=
    map_chars_set_same s.rows cur (rowAt s.rows cur) r' (getElem?_rowAt s.rows cur hcur) hchars
  refine ⟨h.1, hm.trans h.2.1, ?_, ?_, ?_, ?_⟩
  · right
    constructor
    · show (0 : Int) ≤ (cur : Int)
      omega
    · show (cur : Int) < (((s.rows.set cur r').length : Nat) : Int)
      rw [List.length_set]
      omega
  · show cur ≤ (s.rows.set cur r').length
    rw [List.length_set]
    omega
  · intro hlt
    show cx2 ≤ (rowAt (s.rows.set cur r') cur).chars.length
    rw [rowAt_set_self _ _ _ hcur, hchars]
    exact hcx2
  · intro he
    have he2 : cur = (s.rows.set cur r').length := he
    rw [List.length_set] at he2
    show cx2 = 0
    omega

theorem sessionOk_fcSearch (st0 s : EState) (junk : Nat → Hl) (q : List Char)
    (hd : s.direction = 1 ∨ s.direction = -1) (h : sessionOk st0 s) :
    sessionOk st0 (fcSearch s junk q) := by
  unfold fcSearch
  split
  · exact h
  · rename_i cur heq
    have hlm : s.lastMatch < (s.rows.length : Int) := by
      rcases h.2.2.1 with h1 | ⟨h1, h2⟩ <;> omega
    have hcur : cur < s.rows.length :=
      findLoopGo_bounded s.rows q s.direction hd s.rows.length (le_refl _) s.lastMatch hlm
        cur heq
    exact sessionOk_search_hit st0 s cur _ _ _ _ hcur rfl
      (rxToCx_le (rowAt s.rows cur).chars _) h

theorem sessionOk_findCallbackStep (st0 s : EState) (junk : Nat → Hl) (q : List Char)
    (k : Key) (h : sessionOk st0 s) : sessionOk st0 (findCallbackStep s junk q k) := by
  unfold findCallbackStep
  split_ifs with hk
  · have h2 := sessionOk_fcRestore st0 s h
    exact ⟨h2.1, h2.2.1, Or.inl rfl, h2.2.2.2⟩
  · have h1 := sessionOk_fcSetDir st0 (fcRestore s) k (sessionOk_fcRestore st0 s h)
    have h2 := sessionOk_fcForce st0 _ h1
    exact sessionOk_fcSearch st0 _ junk q (fcForce_fcSetDir_direction (fcRestore s) k) h2

theorem sessionOk_findFold (st0 : EState) (evs : List FindEv) : ∀ s : EState,
    sessionOk st0 s →
    sessionOk st0 (evs.foldl (fun s ev => findCallbackStep s ev.junk ev.q ev.key) s) := by
  induction evs with
  | nil => intro s h; exact h
  | cons e es ih =>
    intro s h
    exact ih (findCallbackStep s e.junk e.q e.key)
      (sessionOk_findCallbackStep st0 s e.junk e.q e.key h)

theorem fcStep_final_lastMatch (s : EState) (junk : Nat → Hl) (q : List Char) (k : Key)
    (hk : k = enterKey ∨ k = escKey) : (findCallbackStep s junk q k).lastMatch = -1 := by
  unfold findCallbackStep
  rw [if_pos hk]

/-- A whole search-prompt session keeps the keypress postcondition. -/
theorem midOk_findSession (st : EState) (fs : FindScript) (h : keyInv st) :
    midOk (findSession st fs) := by
  have h0 : sessionOk st st := ⟨rfl, rfl, Or.inl h.2.2.1, h.2.2.2⟩
  have hS := sessionOk_findFold st fs.evs st h0
  unfold findSession
  split_ifs with hc
  · have hE := sessionOk_findCallbackStep st _ fs.lastJunk fs.lastQ escKey hS
    refine ⟨?_, ?_, ?_⟩
    · show 1 ≤ (findCallbackStep (fs.evs.foldl (fun s ev => findCallbackStep s ev.junk ev.q
          ev.key) st) fs.lastJunk fs.lastQ escKey).screenrows
      rw [hE.1]
      exact h.1
    · show (findCallbackStep (fs.evs.foldl (fun s ev => findCallbackStep s ev.junk ev.q
          ev.key) st) fs.lastJunk fs.lastQ escKey).lastMatch = -1
      exact fcStep_final_lastMatch _ _ _ escKey (Or.inr rfl)
    · exact cursorOk_transfer h.2.2.2 rfl rfl hE.2.1
  · have hE := sessionOk_findCallbackStep st _ fs.lastJunk fs.lastQ enterKey hS
    refine ⟨?_, ?_, ?_⟩
    · rw [hE.1]
      exact h.1
    · exact fcStep_final_lastMatch _ _ _ enterKey (Or.inl rfl)
    · exact hE.2.2.2

theorem insertRow_length (st : EState) (a : Nat) (s : List Char) (h : a ≤ st.rows.length) :
    (editorInsertRow st a s).rows.length = st.rows.length + 1 := by
  unfold editorInsertRow
  rw [if_neg (by omega)]
  show (editorUpdateRowAt st.syntaxOn ((st.rows.insertIdx a (freshRow s)).length - 1)
    (st.rows.insertIdx a (freshRow s)) a).length = st.rows.length + 1
  rw [editorUpdateRowAt_length, List.length_insertIdx _ _ h]

theorem insertRow_frame (st : EState) (a : Nat) (s : List Char) :
    (editorInsertRow st a s).cx = st.cx ∧ (editorInsertRow st a s).cy = st.cy ∧
      (editorInsertRow st a s).screenrows = st.screenrows ∧
      (editorInsertRow st a s).lastMatch = st.lastMatch := by
  unfold editorInsertRow
  split_ifs <;> exact ⟨rfl, rfl, rfl, rfl⟩

theorem truncate_length (s : EState) (cy cx : Nat) :
    (truncateRowStep s cy cx).rows.length = s.rows.length := by
  unfold truncateRowStep
  split
  · rfl
  · rename_i r heq
    show (editorUpdateRowAt _ _ _ _).length = _
    rw [editorUpdateRowAt_length, List.length_set]

theorem truncate_frame (s : EState) (cy cx : Nat) :
    (truncateRowStep s cy cx).cx = s.cx ∧ (truncateRowStep s cy cx).cy = s.cy ∧
      (truncateRowStep s cy cx).screenrows = s.screenrows ∧
      (truncateRowStep s cy cx).lastMatch = s.lastMatch := by
  unfold truncateRowStep
  split <;> exact ⟨rfl, rfl, rfl, rfl⟩

/-- After Enter, the cursor bounds hold again. -/
theorem midOk_insertNewline (st : EState) (h1 : 1 ≤ st.screenrows)
    (h2 : st.lastMatch = -1) (h3 : cursorOk st) : midOk (editorInsertNewline st) := by
  obtain ⟨hcy, hcx, hcx0⟩ := h3
  unfold editorInsertNewline
  split_ifs with hx0
  · obtain ⟨f1, f2, f3, f4⟩ := insertRow_frame st st.cy []
    refine ⟨?_, ?_, ?_, ?_, ?_⟩
    · show 1 ≤ (editorInsertRow st st.cy []).screenrows
      rw [f3]
      exact h1
    · show (editorInsertRow st st.cy []).lastMatch = -1
      rw [f4]
      exact h2
    · show (editorInsertRow st st.cy []).cy + 1 ≤ (editorInsertRow st st.cy []).rows.length
      rw [f2, insertRow_length st st.cy [] hcy]
      omega
    · intro _
      exact Nat.zero_le _
    · intro _
      rfl
  · unfold splitRowStep
    split
    · rename_i heq
      have hle := List.getElem?_eq_none_iff.mp heq
      exact absurd (hcx0 (by omega)) hx0
    · rename_i r heq
      have hlt : st.cy < st.rows.length := lt_length_of_getElem?_some heq
      obtain ⟨f1, f2, f3, f4⟩ := insertRow_frame st (st.cy + 1) (r.chars.drop st.cx)
      obtain ⟨g1, g2, g3, g4⟩ := truncate_frame
        (editorInsertRow st (st.cy + 1) (r.chars.drop st.cx)) st.cy st.cx
      refine ⟨?_, ?_, ?_, ?_, ?_⟩
      · show 1 ≤ (truncateRowStep (editorInsertRow st (st.cy + 1) (r.chars.drop st.cx))
          st.cy st.cx).screenrows
        rw [g3, f3]
        exact h1
      · show (truncateRowStep (editorInsertRow st (st.cy + 1) (r.chars.drop st.cx))
          st.cy st.cx).lastMatch = -1
        rw [g4, f4]
        exact h2
      · show (truncateRowStep (editorInsertRow st (st.cy + 1) (r.chars.drop st.cx))
            st.cy st.cx).cy + 1 ≤
          (truncateRowStep (editorInsertRow st (st.cy + 1) (r.chars.drop st.cx))
            st.cy st.cx).rows.length
        rw [g2, f2, truncate_length, insertRow_length st (st.cy + 1) _ (by omega)]
        omega
      · intro _
        exact Nat.zero_le _
      · intro _
        rfl

theorem rowInsertChar_shape (s : EState) (i a : Nat) (c : Char) (r : Row)
    (heq : s.rows[i]? = some r) (hi : i < s.rows.length) :
    (editorRowInsertChar s i a c).rows.length = s.rows.length ∧
      (rowAt (editorRowInsertChar s i a c).rows i).chars
        = r.chars.insertIdx (if a > r.chars.length then r.chars.length else a) c ∧
      (editorRowInsertChar s i a c).cx = s.cx ∧ (editorRowInsertChar s i a c).cy = s.cy ∧
      (editorRowInsertChar s i a c).screenrows = s.screenrows ∧
      (editorRowInsertChar s i a c).lastMatch = s.lastMatch := by
  unfold editorRowInsertChar
  simp only [heq]
  refine ⟨?_, ?_, rfl, rfl, rfl, rfl⟩
  · rw [withRowsUpd_length, List.length_set]
  · rw [withRowsUpd_chars, rowAt_set_self _ _ _ hi]

/-- After typing a printable character, the cursor bounds hold again. -/
theorem midOk_insertChar (st : EState) (c : Char) (h1 : 1 ≤ st.screenrows)
    (h2 : st.lastMatch = -1) (h3 : cursorOk st) : midOk (editorInsertChar st c) := by
  unfold editorInsertChar
  split_ifs with hceq
  · have hx0 : st.cx = 0 := h3.2.2 hceq
    have hlen1 : (editorInsertRow st st.rows.length []).rows.length = st.rows.length + 1 :=
      insertRow_length st st.rows.length [] (le_refl _)
    have hch : (rowAt (editorInsertRow st st.rows.length []).rows st.cy).chars = [] := by
      unfold editorInsertRow
      rw [if_neg (by omega)]
      show (rowAt (editorUpdateRowAt st.syntaxOn
        ((st.rows.insertIdx st.rows.length (freshRow [])).length - 1)
        (st.rows.insertIdx st.rows.length (freshRow [])) st.rows.length) st.cy).chars = []
      rw [chars_rowAt_of_map (updateRowAt_map_chars _ _ _ _) st.cy, hceq,
        List.insertIdx_length_self]
      unfold rowAt
      rw [List.getD_eq_getElem?_getD, List.getElem?_concat_length]
      rfl
    have hltc : st.cy < (editorInsertRow st st.rows.length []).rows.length := by
      rw [hlen1]
      omega
    have hmid := getElem?_rowAt (editorInsertRow st st.rows.length []).rows st.cy hltc
    obtain ⟨s1, s2, s3, s4, s5, s6⟩ := rowInsertChar_shape
      (editorInsertRow st st.rows.length []) st.cy st.cx c _ hmid hltc
    rw [hch] at s2
    have s2c : (rowAt (editorRowInsertChar (editorInsertRow st st.rows.length [])
        st.cy st.cx c).rows st.cy).chars = [c] := by
      rw [s2, if_neg (by omega), hx0]
      rfl
    refine ⟨?_, ?_, ?_, ?_, ?_⟩
    · show 1 ≤ (editorRowInsertChar (editorInsertRow st st.rows.length []) st.cy st.cx c).screenrows
      rw [s5, (insertRow_frame st st.rows.length []).2.2.1]
      exact h1
    · show (editorRowInsertChar (editorInsertRow st st.rows.length []) st.cy st.cx c).lastMatch
        = -1
      rw [s6, (insertRow_frame st st.rows.length []).2.2.2]
      exact h2
    · show (editorRowInsertChar (editorInsertRow st st.rows.length []) st.cy st.cx c).cy ≤
        (editorRowInsertChar (editorInsertRow st st.rows.length []) st.cy st.cx c).rows.length
      rw [s4, s1, hlen1, (insertRow_frame st st.rows.length []).2.1]
      omega
    · intro _
      show (editorRowInsertChar (editorInsertRow st st.rows.length []) st.cy st.cx c).cx + 1 ≤
        (rowAt (editorRowInsertChar (editorInsertRow st st.rows.length []) st.cy st.cx c).rows
          ((editorRowInsertChar (editorInsertRow st st.rows.length []) st.cy st.cx c).cy)).chars.length
      rw [s4, (insertRow_frame st st.rows.length []).2.1, s2c, s3,
        (insertRow_frame st st.rows.length []).1, hx0]
      exact Nat.le_refl 1
    · intro he
      have he2 : (editorRowInsertChar (editorInsertRow st st.rows.length []) st.cy st.cx c).cy =
          (editorRowInsertChar (editorInsertRow st st.rows.length []) st.cy st.cx c).rows.length :=
        he
      rw [s4, s1, hlen1, (insertRow_frame st st.rows.length []).2.1] at he2
      exact absurd he2 (by omega)
  · have hlt : st.cy < st.rows.length := by
      have := h3.1
      omega
    have hmid := getElem?_rowAt st.rows st.cy hlt
    obtain ⟨s1, s2, s3, s4, s5, s6⟩ := rowInsertChar_shape st st.cy st.cx c _ hmid hlt
    have hxle := h3.2.1 hlt
    rw [if_neg (by omega)] at s2
    refine ⟨?_, ?_, ?_, ?_, ?_⟩
    · show 1 ≤ (editorRowInsertChar st st.cy st.cx c).screenrows
      rw [s5]
      exact h1
    · show (editorRowInsertChar st st.cy st.cx c).lastMatch = -1
      rw [s6]
      exact h2
    · show (editorRowInsertChar st st.cy st.cx c).cy ≤
        (editorRowInsertChar st st.cy st.cx c).rows.length
      rw [s4, s1]
      omega
    · intro _
      show (editorRowInsertChar st st.cy st.cx c).cx + 1 ≤
        (rowAt (editorRowInsertChar st st.cy st.cx c).rows
          ((editorRowInsertChar st st.cy st.cx c).cy)).chars.length
      rw [s4, s2, s3, List.length_insertIdx _ _ hxle]
      omega
    · intro he
      have he2 : (editorRowInsertChar st st.cy st.cx c).cy =
          (editorRowInsertChar st st.cy st.cx c).rows.length := he
      rw [s4, s1] at he2
      exact absurd he2 (by omega)

theorem rowAppendString_shape (s : EState) (i : Nat) (str : List Char) (r : Row)
    (heq : s.rows[i]? = some r) (hi : i < s.rows.length) :
    (editorRowAppendString s i str).rows.length = s.rows.length ∧
      (rowAt (editorRowAppendString s i str).rows i).chars = r.chars ++ str ∧
      (editorRowAppendString s i str).cx = s.cx ∧ (editorRowAppendString s i str).cy = s.cy ∧
      (editorRowAppendString s i str).screenrows = s.screenrows ∧
      (editorRowAppendString s i str).lastMatch = s.lastMatch := by
  unfold editorRowAppendString
  simp only [heq]
  refine ⟨?_, ?_, rfl, rfl, rfl, rfl⟩
  · rw [withRowsUpd_length, List.length_set]
  · rw [withRowsUpd_chars, rowAt_set_self _ _ _ hi]

theorem delRow_frame (s : EState) (a : Nat) : (editorDelRow s a).cx = s.cx ∧
    (editorDelRow s a).cy = s.cy ∧ (editorDelRow s a).screenrows = s.screenrows ∧
    (editorDelRow s a).lastMatch = s.lastMatch := by
  unfold editorDelRow
  split_ifs <;> exact ⟨rfl, rfl, rfl, rfl⟩

/-- After BACKSPACE / DEL, the cursor bounds hold again. -/
theorem midOk_delChar (st : EState) (h1 : 1 ≤ st.screenrows)
    (h2 : st.lastMatch = -1) (h3 : cursorOk st) : midOk (editorDelChar st) := by
  obtain ⟨hcy, hcx, hcx0⟩ := h3
  unfold editorDelChar
  split_ifs with g1 g2 g3
  · exact ⟨h1, h2, hcy, hcx, hcx0⟩
  · exact ⟨h1, h2, hcy, hcx, hcx0⟩
  · have hlt : st.cy < st.rows.length := by omega
    have hmid := getElem?_rowAt st.rows st.cy hlt
    unfold editorRowDelChar
    simp only [hmid]
    split_ifs with g4
    · refine ⟨h1, h2, hcy, ?_, ?_⟩
      · intro _
        show st.cx - 1 ≤ (rowAt st.rows st.cy).chars.length
        have := hcx hlt
        omega
      · intro he
        exact absurd (show st.cy = st.rows.length from he) g1
    · refine ⟨h1, h2, ?_, ?_, ?_⟩
      · show st.cy ≤ (withRowsUpd st (st.rows.set st.cy { rowAt st.rows st.cy with
          chars := (rowAt st.rows st.cy).chars.eraseIdx (st.cx - 1) }) st.cy).rows.length
        rw [withRowsUpd_length, List.length_set]
        omega
      · intro _
        show st.cx - 1 ≤ (rowAt (withRowsUpd st (st.rows.set st.cy { rowAt st.rows st.cy with
          chars := (rowAt st.rows st.cy).chars.eraseIdx (st.cx - 1) }) st.cy).rows
            st.cy).chars.length
        rw [withRowsUpd_chars, rowAt_set_self _ _ _ hlt]
        show st.cx - 1 ≤ ((rowAt st.rows st.cy).chars.eraseIdx (st.cx - 1)).length
        rw [List.length_eraseIdx, if_pos (by have := hcx hlt; omega)]
        have := hcx hlt
        omega
      · intro he
        have he2 : st.cy = (withRowsUpd st (st.rows.set st.cy { rowAt st.rows st.cy with
          chars := (rowAt st.rows st.cy).chars.eraseIdx (st.cx - 1) }) st.cy).rows.length := he
        rw [withRowsUpd_length, List.length_set] at he2
        exact absurd he2 g1
  · have hlt : st.cy < st.rows.length := by omega
    have hcx0' : st.cx = 0 := by omega
    have hcy1 : 1 ≤ st.cy := by
      by_contra h0
      push_neg at h0
      exact g2 ⟨hcx0', by omega⟩
    have hlt1 : st.cy - 1 < st.rows.length := by omega
    have heq1 := getElem?_rowAt st.rows (st.cy - 1) hlt1
    obtain ⟨a1, a2, a3, a4, a5, a6⟩ := rowAppendString_shape st (st.cy - 1)
      (rowAt st.rows st.cy).chars _ heq1 hlt1
    unfold mergeRowsStep
    have hdr : (editorDelRow (editorRowAppendString st (st.cy - 1)
        (rowAt st.rows st.cy).chars) st.cy).rows =
        (editorRowAppendString st (st.cy - 1) (rowAt st.rows st.cy).chars).rows.eraseIdx
          st.cy := by
      unfold editorDelRow
      rw [if_neg (by rw [a1]; omega)]
    obtain ⟨d1, d2, d3, d4⟩ := delRow_frame
      (editorRowAppendString st (st.cy - 1) (rowAt st.rows st.cy).chars) st.cy
    refine ⟨?_, ?_, ?_, ?_, ?_⟩
    · show 1 ≤ (editorDelRow (editorRowAppendString st (st.cy - 1)
        (rowAt st.rows st.cy).chars) st.cy).screenrows
      rw [d3, a5]
      exact h1
    · show (editorDelRow (editorRowAppendString st (st.cy - 1)
        (rowAt st.rows st.cy).chars) st.cy).lastMatch = -1
      rw [d4, a6]
      exact h2
    · show st.cy - 1 ≤ (editorDelRow (editorRowAppendString st (st.cy - 1)
        (rowAt st.rows st.cy).chars) st.cy).rows.length
      rw [hdr, List.length_eraseIdx, a1, if_pos hlt]
      omega
    · intro _
      show (rowAt st.rows (st.cy - 1)).chars.length ≤
        (rowAt (editorDelRow (editorRowAppendString st (st.cy - 1)
          (rowAt st.rows st.cy).chars) st.cy).rows (st.cy - 1)).chars.length
      rw [hdr, rowAt_eraseIdx_of_lt _ _ _ (by omega) (by rw [a1]; omega), a2,
        List.length_append]
      omega
    · intro he
      have he2 : st.cy - 1 = (editorDelRow (editorRowAppendString st (st.cy - 1)
        (rowAt st.rows st.cy).chars) st.cy).rows.length := he
      rw [hdr, List.length_eraseIdx, a1, if_pos hlt] at he2
      show (rowAt st.rows (st.cy - 1)).chars.length = 0
      omega

/-- The refresh between keypresses re-establishes the key-read
invariant: `editorScroll` pulls `rowoff` back to at most `cy`. -/
theorem scroll_keyInv (s : EState) (h : midOk s) : keyInv (editorScroll s) := by
  obtain ⟨h1, h2, h3⟩ := h
  refine ⟨h1, ?_, h2, h3⟩
  show scrollRowoff s ≤ s.cy
  unfold scrollRowoff
  split_ifs <;> omega

theorem foldl_insertRow_frame (lines : List (List Char)) : ∀ s : EState,
    ((lines.foldl (fun s line => editorInsertRow s s.rows.length (stripCRLF line)) s)).cx
        = s.cx ∧
      ((lines.foldl (fun s line => editorInsertRow s s.rows.length (stripCRLF line)) s)).cy
        = s.cy ∧
      ((lines.foldl (fun s line =>
        editorInsertRow s s.rows.length (stripCRLF line)) s)).screenrows = s.screenrows ∧
      ((lines.foldl (fun s line =>
        editorInsertRow s s.rows.length (stripCRLF line)) s)).lastMatch = s.lastMatch := by
  induction lines with
  | nil => intro s; exact ⟨rfl, rfl, rfl, rfl⟩
  | cons l ls ih =>
    intro s
    obtain ⟨a1, a2, a3, a4⟩ := ih (editorInsertRow s s.rows.length (stripCRLF l))
    obtain ⟨b1, b2, b3, b4⟩ := insertRow_frame s s.rows.length (stripCRLF l)
    exact ⟨a1.trans b1, a2.trans b2, a3.trans b3, a4.trans b4⟩

theorem editorOpen_frame (st : EState) (syn : Bool) (content : List Char) :
    (editorOpen st syn content).cx = st.cx ∧ (editorOpen st syn content).cy = st.cy ∧
      (editorOpen st syn content).screenrows = st.screenrows ∧
      (editorOpen st syn content).lastMatch = st.lastMatch := by
  obtain ⟨a1, a2, a3, a4⟩ := foldl_insertRow_frame (getLines content) { st with syntaxOn := syn }
  exact ⟨a1, a2, a3, a4⟩

/-! Keypress processing never changes the screen height: the only
writes to `E.screenrows` happen in `initEditor`. -/

theorem rowInsertChar_screenrows (s : EState) (i a : Nat) (c : Char) :
    (editorRowInsertChar s i a c).screenrows = s.screenrows := by
  unfold editorRowInsertChar
  split <;> rfl

theorem rowAppendString_screenrows (s : EState) (i : Nat) (str : List Char) :
    (editorRowAppendString s i str).screenrows = s.screenrows := by
  unfold editorRowAppendString
  split <;> rfl

theorem rowDelChar_screenrows (s : EState) (i a : Nat) :
    (editorRowDelChar s i a).screenrows = s.screenrows := by
  unfold editorRowDelChar
  split
  · rfl
  · split_ifs <;> rfl

theorem splitRowStep_screenrows (st : EState) :
    (splitRowStep st).screenrows = st.screenrows := by
  unfold splitRowStep
  split
  · rfl
  · rename_i r heq
    rw [(truncate_frame (editorInsertRow st (st.cy + 1) (r.chars.drop st.cx)) st.cy st.cx).2.2.1,
      (insertRow_frame st (st.cy + 1) (r.chars.drop st.cx)).2.2.1]

theorem insertNewline_screenrows (st : EState) :
    (editorInsertNewline st).screenrows = st.screenrows := by
  unfold editorInsertNewline
  split_ifs
  · show (editorInsertRow st st.cy []).screenrows = st.screenrows
    exact (insertRow_frame st st.cy []).2.2.1
  · show (splitRowStep st).screenrows = st.screenrows
    exact splitRowStep_screenrows st

theorem insertChar_screenrows (st : EState) (c : Char) :
    (editorInsertChar st c).screenrows = st.screenrows := by
  unfold editorInsertChar
  split_ifs
  · show (editorRowInsertChar (editorInsertRow st st.rows.length []) st.cy st.cx c).screenrows
      = st.screenrows
    rw [rowInsertChar_screenrows, (insertRow_frame st st.rows.length []).2.2.1]
  · show (editorRowInsertChar st st.cy st.cx c).screenrows = st.screenrows
    exact rowInsertChar_screenrows st st.cy st.cx c

theorem delChar_screenrows (st : EState) :
    (editorDelChar st).screenrows = st.screenrows := by
  unfold editorDelChar
  split_ifs
  · rfl
  · rfl
  · show (editorRowDelChar st st.cy (st.cx - 1)).screenrows = st.screenrows
    exact rowDelChar_screenrows st st.cy (st.cx - 1)
  · show (editorDelRow (editorRowAppendString st (st.cy - 1) (rowAt st.rows st.cy).chars)
        st.cy).screenrows = st.screenrows
    rw [(delRow_frame (editorRowAppendString st (st.cy - 1) (rowAt st.rows st.cy).chars)
      st.cy).2.2.1, rowAppendString_screenrows]

theorem save_screenrows (st : EState) (ok : Bool) :
    (editorSave st ok).screenrows = st.screenrows := by
  unfold editorSave
  split_ifs <;> rfl

theorem fcRestore_screenrows (s : EState) : (fcRestore s).screenrows = s.screenrows := by
  unfold fcRestore
  split <;> rfl

theorem fcSetDir_screenrows (s : EState) (k : Key) :
    (fcSetDir s k).screenrows = s.screenrows := by
  unfold fcSetDir
  split_ifs <;> rfl

theorem fcForce_screenrows (s : EState) : (fcForce s).screenrows = s.screenrows := by
  unfold fcForce
  split_ifs <;> rfl

theorem fcSearch_screenrows (s : EState) (junk : Nat → Hl) (q : List Char) :
    (fcSearch s junk q).screenrows = s.screenrows := by
  unfold fcSearch
  split <;> rfl

theorem fcStep_screenrows (s : EState) (junk : Nat → Hl) (q : List Char) (k : Key) :
    (findCallbackStep s junk q k).screenrows = s.screenrows := by
  unfold findCallbackStep
  split_ifs
  · show (fcRestore s).screenrows = s.screenrows
    exact fcRestore_screenrows s
  · rw [fcSearch_screenrows, fcForce_screenrows, fcSetDir_screenrows, fcRestore_screenrows]

theorem findFold_screenrows (evs : List FindEv) : ∀ s : EState,
    (evs.foldl (fun s ev => findCallbackStep s ev.junk ev.q ev.key) s).screenrows
      = s.screenrows := by
  induction evs with
  | nil => intro s; rfl
  | cons e es ih =>
    intro s
    exact (ih (findCallbackStep s e.junk e.q e.key)).trans
      (fcStep_screenrows s e.junk e.q e.key)

theorem findSession_screenrows (st : EState) (fs : FindScript) :
    (findSession st fs).screenrows = st.screenrows := by
  unfold findSession
  split_ifs
  · show (findCallbackStep (fs.evs.foldl (fun s ev => findCallbackStep s ev.junk ev.q ev.key)
        st) fs.lastJunk fs.lastQ escKey).screenrows = st.screenrows
    rw [fcStep_screenrows, findFold_screenrows]
  · rw [fcStep_screenrows, findFold_screenrows]

/-- `editorProcessKeypress` leaves the screen height unchanged. -/
theorem procKey_screenrows (st : EState) (k : Key) (fs : FindScript) (ok : Bool) :
    (procKey st k fs ok).1.screenrows = st.screenrows := by
  refine procKey_elim (fun s => s.screenrows = st.screenrows) st k fs ok
    ?_ ?_ ?_ ?_ ?_ ?_ ?_ ?_ ?_ ?_ ?_ ?_ ?_ ?_
  · show (editorInsertNewline st).screenrows = st.screenrows
    exact insertNewline_screenrows st
  · rfl
  · rfl
  · show (editorSave st ok).screenrows = st.screenrows
    exact save_screenrows st ok
  · rfl
  · intro _
    rfl
  · rfl
  · show (findSession st fs).screenrows = st.screenrows
    exact findSession_screenrows st fs
  · show (editorDelChar (editorMoveCursor st Key.arrowRight)).screenrows = st.screenrows
    rw [delChar_screenrows, (mc_frame st Key.arrowRight).2.1]
  · show (editorDelChar st).screenrows = st.screenrows
    exact delChar_screenrows st
  · show (moveTimes { st with cy := st.rowoff } Key.arrowUp st.screenrows).screenrows
      = st.screenrows
    exact (moveTimes_frame Key.arrowUp st.screenrows { st with cy := st.rowoff }).2.1
  · show (moveTimes { st with cy := if st.rowoff + st.screenrows - 1 > st.rows.length
        then st.rows.length else st.rowoff + st.screenrows - 1 } Key.arrowDown
        st.screenrows).screenrows = st.screenrows
    exact (moveTimes_frame Key.arrowDown st.screenrows { st with cy := if st.rowoff +
      st.screenrows - 1 > st.rows.length then st.rows.length
      else st.rowoff + st.screenrows - 1 }).2.1
  · intro k'
    show (editorMoveCursor st k').screenrows = st.screenrows
    exact (mc_frame st k').2.1
  · intro c
    show (editorInsertChar st c).screenrows = st.screenrows
    exact insertChar_screenrows st c

/-- One keypress preserves the cursor bounds (and leaves the static
search state reset and the screen height positive). -/
theorem procKey_midOk (st : EState) (k : Key) (fs : FindScript) (ok : Bool)
    (h : keyInv st) : midOk (procKey st k fs ok).1 := by
  obtain ⟨hscr, hro, hlm, hcok⟩ := h
  refine procKey_elim (fun s => midOk s) st k fs ok ?_ ?_ ?_ ?_ ?_ ?_ ?_ ?_ ?_ ?_ ?_ ?_ ?_ ?_
  · exact midOk_insertNewline st hscr hlm hcok
  · exact ⟨hscr, hlm, hcok⟩
  · exact ⟨hscr, hlm, hcok⟩
  · have hm : midOk (editorSave st ok) := by
      unfold editorSave
      split_ifs <;> exact ⟨hscr, hlm, hcok⟩
    exact hm
  · exact ⟨hscr, hlm, hcok.1, fun _ => Nat.zero_le _, fun _ => rfl⟩
  · intro hcylt
    exact ⟨hscr, hlm, hcok.1, fun _ => le_refl _,
      fun he => absurd (show st.cy = st.rows.length from he) (by omega)⟩
  · exact ⟨hscr, hlm, hcok⟩
  · exact midOk_findSession st fs ⟨hscr, hro, hlm, hcok⟩
  · obtain ⟨m1, m2, m3⟩ := mc_frame st Key.arrowRight
    exact midOk_delChar (editorMoveCursor st Key.arrowRight)
      (by rw [m2]; exact hscr) (by rw [m3]; exact hlm)
      (moveCursor_cursorOk st Key.arrowRight hcok.1)
  · exact midOk_delChar st hscr hlm hcok
  · obtain ⟨t1, t2, t3⟩ := moveTimes_frame Key.arrowUp st.screenrows
      ({ st with cy := st.rowoff } : EState)
    refine ⟨?_, ?_, ?_⟩
    · show 1 ≤ (moveTimes { st with cy := st.rowoff } Key.arrowUp st.screenrows).screenrows
      rw [t2]
      exact hscr
    · show (moveTimes { st with cy := st.rowoff } Key.arrowUp st.screenrows).lastMatch = -1
      rw [t3]
      exact hlm
    · exact moveTimes_cursorOk_of_pos Key.arrowUp st.screenrows hscr
        { st with cy := st.rowoff }
        (show st.rowoff ≤ st.rows.length by have := hcok.1; omega)
  · obtain ⟨t1, t2, t3⟩ := moveTimes_frame Key.arrowDown st.screenrows
      ({ st with cy := if st.rowoff + st.screenrows - 1 > st.rows.length then st.rows.length
        else st.rowoff + st.screenrows - 1 } : EState)
    refine ⟨?_, ?_, ?_⟩
    · show 1 ≤ (moveTimes { st with cy := if st.rowoff + st.screenrows - 1 > st.rows.length
        then st.rows.length else st.rowoff + st.screenrows - 1 } Key.arrowDown
        st.screenrows).screenrows
      rw [t2]
      exact hscr
    · show (moveTimes { st with cy := if st.rowoff + st.screenrows - 1 > st.rows.length
        then st.rows.length else st.rowoff + st.screenrows - 1 } Key.arrowDown
        st.screenrows).lastMatch = -1
      rw [t3]
      exact hlm
    · exact moveTimes_cursorOk_of_pos Key.arrowDown st.screenrows hscr
        { st with cy := if st.rowoff + st.screenrows - 1 > st.rows.length then st.rows.length
          else st.rowoff + st.screenrows - 1 }
        (by
          show (if st.rowoff + st.screenrows - 1 > st.rows.length then st.rows.length
            else st.rowoff + st.screenrows - 1) ≤ st.rows.length
          split_ifs <;> omega)
  · intro k'
    obtain ⟨m1, m2, m3⟩ := mc_frame st k'
    refine ⟨?_, ?_, moveCursor_cursorOk st k' hcok.1⟩
    · show 1 ≤ (editorMoveCursor st k').screenrows
      rw [m2]
      exact hscr
    · show (editorMoveCursor st k').lastMatch = -1
      rw [m3]
      exact hlm
  · intro c
    exact midOk_insertChar st c hscr hlm hcok

/-- Every reachable key-read state with a positive screen height
satisfies the full invariant (`screenrows` never changes after boot, so
the hypothesis on the final state pins the whole trace). -/
theorem keyInv_reachable (st : EState) (h : Reachable st) :
    1 ≤ st.screenrows → keyInv st := by
  induction h with
  | boot sr sc =>
    intro hs
    apply scroll_keyInv
    exact ⟨hs, rfl, Nat.le_refl 0,
      fun hlt => absurd (show (0 : Nat) < 0 from hlt) (Nat.lt_irrefl 0), fun _ => rfl⟩
  | bootOpen sr sc syn content =>
    intro hs
    apply scroll_keyInv
    obtain ⟨f1, f2, f3, f4⟩ := editorOpen_frame (initState sr sc) syn content
    have h : 1 ≤ (initState sr sc).screenrows := by
      have hs2 : 1 ≤ (editorOpen (initState sr sc) syn content).screenrows := hs
      rw [f3] at hs2
      exact hs2
    refine ⟨?_, ?_, ?_, ?_, ?_⟩
    · show 1 ≤ (editorOpen (initState sr sc) syn content).screenrows
      rw [f3]
      exact h
    · show (editorOpen (initState sr sc) syn content).lastMatch = -1
      rw [f4]
      rfl
    · show (editorOpen (initState sr sc) syn content).cy ≤
        (editorOpen (initState sr sc) syn content).rows.length
      rw [f2]
      exact Nat.zero_le _
    · intro _
      show (editorOpen (initState sr sc) syn content).cx ≤ _
      rw [f1]
      exact Nat.zero_le _
    · intro _
      show (editorOpen (initState sr sc) syn content).cx = 0
      rw [f1]
      rfl
  | key k fs ok hst ih =>
    rename_i stp
    intro hs
    have hs2 : 1 ≤ (procKey stp k fs ok).1.screenrows := hs
    rw [procKey_screenrows] at hs2
    exact scroll_keyInv _ (procKey_midOk _ k fs ok (ih hs2))

/-- C10: at every point where the main loop reads a key — after
initialization, after a file open, and after each completed
`editorProcessKeypress` (including a finished find prompt), each
followed by the refresh of the next iteration — provided the drawable
region has at least one text row (`1 ≤ screenrows`), the cursor
satisfies `cy ≤ numrows`, `cx ≤ len(row[cy].chars)` whenever
`cy < numrows`, and `cx = 0` on the virtual line `cy = numrows` (the
lower bounds `0 ≤ cy`, `0 ≤ cx` are inherent in the `Nat` model).  The
height hypothesis is necessary: see the counterexample, where a
zero-height region — produced by a 2-row terminal, since
`getWindowSize` only fails on a zero column count — lets Page Up move
`cy` beyond `numrows`. -/
theorem C10_cursor_bounds (st : EState) (h : Reachable st) (hs : 1 ≤ st.screenrows) :
    st.cy ≤ st.rows.length ∧
      (st.cy < st.rows.length → st.cx ≤ (rowAt st.rows st.cy).chars.length) ∧
      (st.cy = st.rows.length → st.cx = 0) :=
  (keyInv_reachable st h hs).2.2.2

/-- C10, witness: the bounds at the reachable state obtained by opening
a two-row file and pressing End. -/
theorem C10_cursor_bounds_witness :
    (editorScroll (procKey (editorScroll (editorOpen (initState 24 80) false
          ("hi\nworld\n".toList))) Key.endKey noScript true).1).cy ≤
        (editorScroll (procKey (editorScroll (editorOpen (initState 24 80) false
          ("hi\nworld\n".toList))) Key.endKey noScript true).1).rows.length ∧
      ((editorScroll (procKey (editorScroll (editorOpen (initState 24 80) false
          ("hi\nworld\n".toList))) Key.endKey noScript true).1).cy <
        (editorScroll (procKey (editorScroll (editorOpen (initState 24 80) false
          ("hi\nworld\n".toList))) Key.endKey noScript true).1).rows.length →
        (editorScroll (procKey (editorScroll (editorOpen (initState 24 80) false
          ("hi\nworld\n".toList))) Key.endKey noScript true).1).cx ≤
        (rowAt (editorScroll (procKey (editorScroll (editorOpen (initState 24 80) false
          ("hi\nworld\n".toList))) Key.endKey noScript true).1).rows
          (editorScroll (procKey (editorScroll (editorOpen (initState 24 80) false
            ("hi\nworld\n".toList))) Key.endKey noScript true).1).cy).chars.length) ∧
      ((editorScroll (procKey (editorScroll (editorOpen (initState 24 80) false
          ("hi\nworld\n".toList))) Key.endKey noScript true).1).cy =
        (editorScroll (procKey (editorScroll (editorOpen (initState 24 80) false
          ("hi\nworld\n".toList))) Key.endKey noScript true).1).rows.length →
        (editorScroll (procKey (editorScroll (editorOpen (initState 24 80) false
          ("hi\nworld\n".toList))) Key.endKey noScript true).1).cx = 0) :=
  C10_cursor_bounds _ (Reachable.key Key.endKey noScript true
    (Reachable.bootOpen 24 80 false ("hi\nworld\n".toList))) (by decide)

/-- The key-read state reached on a zero-height drawable region (a
2-row terminal passes `getWindowSize`, whose failure check only looks
at the column count, and `initEditor` subtracts the 2 status lines):
boot with no file, first refresh, one Page Up, next refresh. -/
def c10bad : EState :=
  editorScroll (procKey (editorScroll (initState 0 80)) Key.pageUp noScript true).1

/-- C10, counterexample to the unconditional claim: with
`screenrows = 0` the first refresh's `editorScroll` pushes `rowoff` to
`cy + 1` (the `cy >= rowoff + screenrows` branch), and Page Up then
jumps `cy` to `rowoff` while its corrective `editorMoveCursor` loop
runs `screenrows = 0` times, so at the very next key-read point
`cy = 1 > numrows = 0`: the claimed bound `cy ≤ numrows` fails on a
reachable state. -/
theorem C10_zero_height_pageup_breaks_bounds :
    Reachable c10bad ∧ c10bad.screenrows = 0 ∧
      c10bad.rows.length = 0 ∧ c10bad.cy = 1 :=
  ⟨Reachable.key Key.pageUp noScript true (Reachable.boot 0 80), by decide⟩

end Kilo
